import Mathlib

/-!
# Verification of the phytospatial raster engine and feature extractor

Shallow embedding of the core of `phytospatial` (resource analyzer, raster
envelope, CHM builder, treetop detection, crown delineation, partitioner and
object-based feature extractor), with theorems settling the specification
claims about these components.

Modelling conventions:
* machine floats are modelled by `ℚ` (the algorithms use only arithmetic and
  comparisons; NaN-free inputs are assumed where the source compares with
  `==`);
* numpy arrays are modelled by index functions `Nat → ... → ℚ` together with
  explicit extents;
* fallible code returns `Option`/`Except`;
* Python attribute access on a dataclass is modelled by a name-indexed
  `Option`-valued lookup over the declared fields.
-/

namespace Phytospatial

/-! ## Resource analyzer (`raster/resources.py`) -/

/-- Processing mode recommendation, `ProcessingMode` in `resources.py`. -/
inductive ProcessingMode where
  | in_memory
  | blocked
  | tiled
deriving DecidableEq, Repr

/-- `ProcessingMode(value)`: parse the string value of the enum, `none` models
the `ValueError` raised by the Python enum constructor. -/
def ProcessingMode.ofString : String → Option ProcessingMode
  | "in_memory" => some .in_memory
  | "blocked" => some .blocked
  | "tiled" => some .tiled
  | _ => none

/-- `BlockStructure` dataclass of `resources.py`. -/
structure BlockStructure where
  is_tiled : Bool
  is_striped : Bool
  block_shape : Nat × Nat
deriving DecidableEq, Repr

/-- `BlockStructure._recommend_blocked`. -/
def BlockStructure.recommendBlocked (s : BlockStructure) : Bool :=
  s.is_tiled && !s.is_striped

/-- The header facts of a raster file consumed by `_analyze_structure`:
dimensions and the per-band native block shapes `(block_h, block_w)`
reported by the I/O collaborator. -/
structure RasterHeader where
  width : Nat
  height : Nat
  blockShapes : List (Nat × Nat)

/-- `_analyze_structure`: classify the raster as striped or tiled from its
first band's block shape; an empty `block_shapes` list is the fail-safe
branch. -/
def analyzeStructure (src : RasterHeader) : BlockStructure :=
  match src.blockShapes with
  | [] => ⟨false, true, (0, 0)⟩
  | (block_h, block_w) :: _ =>
    let is_striped : Bool := (block_w == src.width) || (block_h == 1)
    ⟨!is_striped, is_striped, (block_h, block_w)⟩

/-- `MemoryEstimate` dataclass: the probe result (`_estimate_memory_safety`
consults `psutil`, an external collaborator, so the estimate enters the
embedding as data). -/
structure MemoryEstimate where
  total_required_bytes : Nat
  available_system_bytes : Nat
  is_safe : Bool
  reason : String
deriving DecidableEq, Repr

/-- `StrategyReport` dataclass. -/
structure StrategyReport where
  mode : ProcessingMode
  reason : String
  memory_stats : MemoryEstimate
  structure_stats : BlockStructure
deriving DecidableEq, Repr

/-- `determine_strategy`, after the single I/O pass has produced `estimate`
and `struct`: the user-override logic and the auto logic.  The `ValueError`
for an invalid mode string is the `Except.error` branch. -/
def determineStrategy (estimate : MemoryEstimate) (struct : BlockStructure)
    (user_mode : String) : Except String StrategyReport :=
  if user_mode ≠ "auto" then
    match ProcessingMode.ofString user_mode with
    | some m =>
      if m = ProcessingMode.blocked ∧ ¬ struct.recommendBlocked then
        .ok ⟨ProcessingMode.tiled,
          "Override: Forced TILED because file is STRIPED (User requested BLOCKED)",
          estimate, struct⟩
      else
        .ok ⟨m, "User forced mode: " ++ user_mode, estimate, struct⟩
    | none => .error ("Invalid mode " ++ user_mode)
  else if estimate.is_safe then
    .ok ⟨ProcessingMode.in_memory, "Safe for RAM. " ++ estimate.reason, estimate, struct⟩
  else if struct.recommendBlocked then
    .ok ⟨ProcessingMode.blocked,
      "RAM full, but detected NATIVE TILES. Using BLOCKED mode.", estimate, struct⟩
  else
    .ok ⟨ProcessingMode.tiled,
      "RAM full and detected STRIPS. Using TILED mode.", estimate, struct⟩

/-! ## CHM builder (`lidar/generate_model.py`) -/

/-- `NODATA_VAL` from `lidar/rasterize.py`. -/
def NODATA_VAL : ℚ := -9999

/-- A single-band tile as consumed by `_chm_block`: extent, pixel values and
the optional nodata sentinel. -/
structure ChmTile where
  rows : Nat
  cols : Nat
  vals : Nat → Nat → ℚ
  nodata : Option ℚ

/-- Body of the pixel loop of `_compute_raw_chm`: value and validity flag of
one output pixel. -/
def computeRawChmPixel (has_d_nodata : Bool) (d_nodata : ℚ)
    (has_t_nodata : Bool) (t_nodata : ℚ) (out_nodata : ℚ)
    (d_val t_val : ℚ) : ℚ × Bool :=
  if (has_d_nodata && decide (d_val = d_nodata))
      || (has_t_nodata && decide (t_val = t_nodata)) then
    (out_nodata, false)
  else
    (max 0 (d_val - t_val), true)

/-- `_compute_raw_chm`: the raw CHM grid and its validity mask. -/
def computeRawChm (dsm dtm : Nat → Nat → ℚ) (has_d_nodata : Bool) (d_nodata : ℚ)
    (has_t_nodata : Bool) (t_nodata : ℚ) (out_nodata : ℚ) :
    (Nat → Nat → ℚ) × (Nat → Nat → Bool) :=
  (fun i j => (computeRawChmPixel has_d_nodata d_nodata has_t_nodata t_nodata
      out_nodata (dsm i j) (dtm i j)).1,
   fun i j => (computeRawChmPixel has_d_nodata d_nodata has_t_nodata t_nodata
      out_nodata (dsm i j) (dtm i j)).2)

/-- Index reflection of `scipy.ndimage` boundary mode `reflect`
(`d c b a | a b c d | d c b a`), total in the offset. -/
def reflectIdx (n : Nat) (i : Int) : Nat :=
  let m := (i % (2 * (n : Int))).toNat
  if m < n then m else 2 * n - 1 - m

/-- The `size × size` neighborhood of `(r, c)` used by
`scipy.ndimage.median_filter` (origin-centred window, shifted up-left for an
even size, `reflect` boundary), listed row-major. -/
def medianNeighborhood (rows cols size : Nat) (g : Nat → Nat → ℚ)
    (r c : Nat) : List ℚ :=
  (List.range size).flatMap fun dr =>
    (List.range size).map fun dc =>
      g (reflectIdx rows ((r : Int) + dr - (size / 2 : Nat)))
        (reflectIdx cols ((c : Int) + dc - (size / 2 : Nat)))

/-- Median as taken by `scipy.ndimage.median_filter`: the rank-`len / 2`
element of the sorted window. -/
def medianOfWindow (l : List ℚ) : ℚ :=
  (l.mergeSort (fun a b => a ≤ b)).getD (l.length / 2) 0

/-- `scipy.ndimage.median_filter` on a `rows × cols` grid. -/
def medianFilter (rows cols size : Nat) (g : Nat → Nat → ℚ) :
    Nat → Nat → ℚ :=
  fun r c => medianOfWindow (medianNeighborhood rows cols size g r c)

/-- `_chm_block`: raw CHM, optional median smoothing on the zero-filled
substitute, nodata mask reapplied. -/
def chmBlock (dsm dtm : ChmTile) (filter_size : Nat) : ChmTile :=
  let has_d_nodata := dsm.nodata.isSome
  let d_nodata_val := dsm.nodata.getD 0
  let has_t_nodata := dtm.nodata.isSome
  let t_nodata_val := dtm.nodata.getD 0
  let out_nodata_val := if has_d_nodata then d_nodata_val else NODATA_VAL
  let raw := computeRawChm dsm.vals dtm.vals has_d_nodata d_nodata_val
    has_t_nodata t_nodata_val out_nodata_val
  if filter_size > 0 then
    let temp_chm : Nat → Nat → ℚ := fun i j => if raw.2 i j then raw.1 i j else 0
    let smoothed := medianFilter dsm.rows dsm.cols filter_size temp_chm
    ⟨dsm.rows, dsm.cols,
      fun i j => if raw.2 i j then smoothed i j else out_nodata_val,
      some out_nodata_val⟩
  else
    ⟨dsm.rows, dsm.cols, raw.1, some out_nodata_val⟩

/-- The output nodata sentinel chosen by `_chm_block`: the DSM's sentinel when
present, else `NODATA_VAL`. -/
def chmOutNodata (dsm : ChmTile) : ℚ :=
  dsm.nodata.getD NODATA_VAL

/-- Concrete DSM tile: scenario F of the spec in miniature, pixel `(0, 1)`
carries the nodata sentinel. -/
def exDsmTile : ChmTile :=
  ⟨1, 2, fun _ c => if c = 0 then 20 else -9999, some (-9999)⟩

/-- Concrete DTM tile, constant ground at 10. -/
def exDtmTile : ChmTile :=
  ⟨1, 2, fun _ _ => 10, some (-9999)⟩

/-! ## Raster envelope (`raster_layer.py`, `raster_geometry.py`) -/

/-- A 2-D affine transform, six coefficients as in `affine.Affine`
(`x = a·col + b·row + c`, `y = d·col + e·row + f`). -/
structure AffineT where
  a : ℚ
  b : ℚ
  c : ℚ
  d : ℚ
  e : ℚ
  f : ℚ
deriving DecidableEq, Repr

/-- The in-memory raster envelope `Raster`: a `(bands, rows, cols)` pixel
array together with transform, CRS tag (opaque identifier), nodata sentinel
and the band-name table (ordered dict of name ↦ 1-based index). -/
structure Raster where
  bands : Nat
  rows : Nat
  cols : Nat
  data : Nat → Nat → Nat → ℚ
  transform : AffineT
  crs : Nat
  nodata : Option ℚ
  band_names : List (String × Nat)

/-- `np.array_equal` on two envelopes' pixel arrays: equal shapes and equal
entries over the common extent. -/
def arrayEqual (x y : Raster) : Bool :=
  (x.bands == y.bands && x.rows == y.rows && x.cols == y.cols) &&
    decide (∀ b < x.bands, ∀ i < x.rows, ∀ j < x.cols,
      x.data b i j = y.data b i j)

/-- `Raster.__eq__`: metadata first (transform, CRS, nodata, shape), then
pixel data; the band-name table is not consulted. -/
def rasterEq (x y : Raster) : Bool :=
  let meta_eq := x.transform == y.transform && x.crs == y.crs &&
    x.nodata == y.nodata &&
    ((x.bands, x.rows, x.cols) == (y.bands, y.rows, y.cols))
  if !meta_eq then false
  else arrayEqual x y

/-- `for name, idx in band_names: if idx == current_idx: take name` —
first-match lookup used by `split_bands`. -/
def findBandName (band_names : List (String × Nat)) (idx : Nat) :
    Option String :=
  (band_names.find? (fun p => p.2 == idx)).map Prod.fst

/-- One single-band component produced by `split_bands` (band index `i`,
0-based): `data[i : i+1]` with the matching band name at index 1. -/
def splitComp (r : Raster) (i : Nat) : Raster :=
  { bands := 1, rows := r.rows, cols := r.cols,
    data := fun _ ri ci => r.data i ri ci,
    transform := r.transform, crs := r.crs, nodata := r.nodata,
    band_names := match findBandName r.band_names (i + 1) with
      | some nm => [(nm, 1)]
      | none => [] }

/-- `split_bands`: one single-band envelope per band, band name carried over
as index 1 when the source table names the band. -/
def splitBands (r : Raster) : List Raster :=
  (List.range r.bands).map (splitComp r)

/-- Band lookup in the concatenated stack: the value written by the copy loop
of `stack_bands` (`stacked_data[current_band : current_band + band_count] =
r.data`); bands past the data actually copied keep the `np.zeros`
allocation. -/
def stackedValue : List Raster → Nat → Nat → Nat → ℚ
  | [], _, _, _ => 0
  | r :: rs, b, i, j =>
    if b < r.bands then r.data b i j else stackedValue rs (b - r.bands) i j

/-- Python dict assignment `d[k] = v` on an ordered name table. -/
def dictInsert (d : List (String × Nat)) (k : String) (v : Nat) :
    List (String × Nat) :=
  if d.any (fun p => p.1 == k) then
    d.map (fun p => if p.1 == k then (k, v) else p)
  else d ++ [(k, v)]

/-- The band-name table built by the copy loop of `stack_bands`
(every name of an item maps to `current_band + 1`). -/
def stackBandNames : List Raster → Nat → List (String × Nat) →
    List (String × Nat)
  | [], _, acc => acc
  | r :: rs, current_band, acc =>
    stackBandNames rs (current_band + r.bands)
      (r.band_names.foldl (fun d p => dictInsert d p.1 (current_band + 1)) acc)

/-- `stack_bands`: dimension check against the reference raster, then the
band-count accumulation (note the source seeds `total_bands` with
`ref.count` and then adds every member of `processing_list`, which again
contains `ref`), allocation of `np.zeros((total_bands, h, w))`, and the copy
loop. -/
def stackBands (rasters : List Raster) : Except String Raster :=
  match rasters with
  | [] => .error "Cannot stack empty list of rasters."
  | ref :: rest =>
    let processing_list := ref :: rest
    if processing_list.any
        (fun r => !(r.cols == ref.cols) || !(r.rows == ref.rows)) then
      .error "Dimension mismatch"
    else
      let total_bands := ref.bands + (processing_list.map Raster.bands).sum
      .ok
        { bands := total_bands, rows := ref.rows, cols := ref.cols,
          data := stackedValue processing_list,
          transform := ref.transform, crs := ref.crs, nodata := ref.nodata,
          band_names := stackBandNames processing_list 0 [] }

/-- Concrete one-band one-pixel envelope used to witness the stack/split
round trip. -/
def exRaster : Raster :=
  ⟨1, 1, 1, fun _ _ _ => 7, ⟨1, 0, 0, 0, -1, 0⟩, 32619, none, [("CHM", 1)]⟩

/-- The same envelope with an empty band-name table. -/
def exRasterNoNames : Raster :=
  ⟨1, 1, 1, fun _ _ _ => 7, ⟨1, 0, 0, 0, -1, 0⟩, 32619, none, []⟩


/-! ## Crown delineation (`lidar/delineate_crown.py`) -/

/-- The `DelineationParams` dataclass: exactly the fields it declares. -/
structure DelineationParams where
  delineation_method : String
  pixel_size : ℚ
  min_height : ℚ
  watershed_sigma : ℚ
  max_crown_radius : ℚ
  apex_inclusion : ℚ
  crown_threshold : ℚ

/-- Python attribute access `params.<name>` on a `DelineationParams`
instance: `some` for a declared numeric field, `none` models the
`AttributeError` raised for any other name (a plain dataclass defines no
`__getattr__`). -/
def DelineationParams.attr (p : DelineationParams) : String → Option ℚ
  | "pixel_size" => some p.pixel_size
  | "min_height" => some p.min_height
  | "watershed_sigma" => some p.watershed_sigma
  | "max_crown_radius" => some p.max_crown_radius
  | "apex_inclusion" => some p.apex_inclusion
  | "crown_threshold" => some p.crown_threshold
  | _ => none

/-- The 3×3 neighborhood of a pixel with `reflect` boundary handling. -/
def neighborhood3 (rows cols : Nat) (g : Nat → Nat → ℚ) (r c : Nat) :
    List ℚ :=
  (List.range 3).flatMap fun dr =>
    (List.range 3).map fun dc =>
      g (reflectIdx rows ((r : Int) + dr - 1))
        (reflectIdx cols ((c : Int) + dc - 1))

/-- `scipy.ndimage.grey_closing(size=(3, 3))`: grey dilation followed by
grey erosion with the 3×3 structuring element. -/
def greyClose3 (rows cols : Nat) (g : Nat → Nat → ℚ) : Nat → Nat → ℚ :=
  let dil := fun r c => (neighborhood3 rows cols g r c).foldr max (g r c)
  fun r c => (neighborhood3 rows cols dil r c).foldr min (dil r c)

/-- `_run_region_growing` up to the point where it hands the ring-expansion
kernel its inputs: the prepared (closed) surface, `radius_px`'s ratio,
`apex_inclusion`, `core_inclusion` and `min_height`.  Each `←` is an
attribute read on `DelineationParams`, in source order (the optional
Gaussian blur guarded by the first read is external and unreachable, see
`region_growing_kernel_unreachable`; the embedding therefore stops at the
failed reads rather than modelling the unreachable `_expand_canopy`). -/
def runRegionGrowingInputs (rows cols : Nat) (chm : Nat → Nat → ℚ)
    (params : DelineationParams) :
    Option ((Nat → Nat → ℚ) × ℚ × ℚ × ℚ × ℚ) := do
  let chm_prep := greyClose3 rows cols chm
  let _smoothing_sigma ← params.attr "smoothing_sigma"
  let max_canopy_spread ← params.attr "max_canopy_spread"
  let pixel_size ← params.attr "pixel_size"
  let apex_inclusion ← params.attr "apex_inclusion"
  let core_inclusion ← params.attr "core_inclusion"
  let min_height ← params.attr "min_height"
  pure (chm_prep, max_canopy_spread / pixel_size, apex_inclusion,
    core_inclusion, min_height)

/-! ## Treetop detection, VWS kernel (`lidar/detect_treetop.py`) -/

/-- Python `int(x)`: truncation toward zero. -/
def pytrunc (x : ℚ) : Int :=
  if x < 0 then ⌈x⌉ else ⌊x⌋

/-- Rational power with a natural exponent (`x ** n`), structurally
recursive so that concrete runs evaluate. -/
def qpow (x : ℚ) : Nat → ℚ
  | 0 => 1
  | n + 1 => x * qpow x n

/-- Pixel value at a flat (row-major) index, `idx // cols` / `idx % cols` as
in `_detect_peaks_vws`. -/
def flatVal (cols : Nat) (chm : Nat → Nat → ℚ) (idx : Nat) : ℚ :=
  chm (idx / cols) (idx % cols)

/-- Candidates of `_detect_peaks_vws`: flat indices whose height meets
`threshold_abs`, in flat order. -/
def vwsCandidates (rows cols : Nat) (chm : Nat → Nat → ℚ)
    (threshold_abs : ℚ) : List Nat :=
  (List.range (rows * cols)).filter
    (fun i => decide (threshold_abs ≤ flatVal cols chm i))

/-- Insert a flat index into a height-descending list, after any entry of
strictly larger height (stable insertion). -/
def insertDesc (val : Nat → ℚ) (x : Nat) : List Nat → List Nat
  | [] => [x]
  | y :: ys => if val y < val x then x :: y :: ys else y :: insertDesc val x ys

/-- Height-descending insertion sort over flat indices. -/
def sortDesc (val : Nat → ℚ) : List Nat → List Nat
  | [] => []
  | x :: xs => insertDesc val x (sortDesc val xs)

/-- The candidates sorted by height, tallest first
(`np.argsort(valid_vals)[::-1]`; numpy's quicksort leaves the tie order
unspecified, and no claim depends on it). -/
def vwsSorted (rows cols : Nat) (chm : Nat → Nat → ℚ)
    (threshold_abs : ℚ) : List Nat :=
  sortDesc (flatVal cols chm) (vwsCandidates rows cols chm threshold_abs)

/-- State of the VWS scan: accepted peaks in order, and the exclusion
mask. -/
structure VwsState where
  peaks : List (Nat × Nat)
  mask : Nat → Nat → Bool

/-- The condition under which the inner double loop of `_detect_peaks_vws`
flags pixel `(ir, ic)` after accepting a peak at `(r, c)` with dynamic
radius `dyn`: inside the `int()`-truncated bounding box clipped to the grid,
and within the squared radius. -/
def vwsMaskCond (rows cols r c : Nat) (dyn : ℚ) (ir ic : Nat) : Prop :=
  max 0 (pytrunc ((r : ℚ) - dyn)) ≤ (ir : Int) ∧
  (ir : Int) < min (rows : Int) (pytrunc ((r : ℚ) + dyn + 1)) ∧
  max 0 (pytrunc ((c : ℚ) - dyn)) ≤ (ic : Int) ∧
  (ic : Int) < min (cols : Int) (pytrunc ((c : ℚ) + dyn + 1)) ∧
  qpow ((ir : ℚ) - r) 2 + qpow ((ic : ℚ) - c) 2 ≤ qpow dyn 2

instance (rows cols r c : Nat) (dyn : ℚ) (ir ic : Nat) :
    Decidable (vwsMaskCond rows cols r c dyn ir ic) := by
  unfold vwsMaskCond
  infer_instance

/-- One iteration of the scan loop of `_detect_peaks_vws`: skip a masked
candidate; otherwise accept it and flag every pixel of the dynamic-radius
disk (restricted to the `int()`-truncated bounding box) in the mask. -/
def vwsStep (rows cols : Nat) (chm : Nat → Nat → ℚ)
    (base_dist_px height_scale : ℚ) (power : Nat)
    (st : VwsState) (idx : Nat) : VwsState :=
  let r := idx / cols
  let c := idx % cols
  if st.mask r c then st
  else
    let peak_height := chm r c
    let dynamic_dist_px := base_dist_px + qpow peak_height power * height_scale
    { peaks := st.peaks ++ [(r, c)],
      mask := fun ir ic =>
        st.mask ir ic || decide (vwsMaskCond rows cols r c dynamic_dist_px ir ic) }

/-- `_detect_peaks_vws`: the accepted `(row, col)` peaks, in acceptance
order. -/
def detectPeaksVws (rows cols : Nat) (chm : Nat → Nat → ℚ)
    (base_dist_px height_scale : ℚ) (threshold_abs : ℚ) (power : Nat) :
    List (Nat × Nat) :=
  ((vwsSorted rows cols chm threshold_abs).foldl
    (vwsStep rows cols chm base_dist_px height_scale power)
    ⟨[], fun _ _ => false⟩).peaks

/-- The exclusion radius of a peak:
`base_distance + height(p)^power × height_scale` (pixels). -/
def vwsRadius (chm : Nat → Nat → ℚ) (base_dist_px height_scale : ℚ)
    (power : Nat) (p : Nat × Nat) : ℚ :=
  base_dist_px + qpow (chm p.1 p.2) power * height_scale

/-- Squared pixel distance between two grid cells. -/
def pixDistSq (p q : Nat × Nat) : ℚ :=
  qpow ((p.1 : ℚ) - (q.1 : ℚ)) 2 + qpow ((p.2 : ℚ) - (q.2 : ℚ)) 2

/-- `q` lies within the exclusion disk of radius `radius` centred at `p`
(distance at most the radius; an empty statement for a negative radius). -/
def inExclusionDisk (radius : ℚ) (p q : Nat × Nat) : Prop :=
  0 ≤ radius ∧ pixDistSq p q ≤ qpow radius 2

/-- The invariant maintained by the VWS scan: accepted peaks are in range
and above threshold; peak heights are non-increasing along the acceptance
order and each later peak escapes each earlier peak's disk (when that disk
is non-empty); the mask covers each accepted peak's disk restricted to the
grid. -/
def VwsInv (rows cols : Nat) (chm : Nat → Nat → ℚ) (base scale thr : ℚ)
    (power : Nat) (st : VwsState) : Prop :=
  (∀ p ∈ st.peaks, p.1 < rows ∧ p.2 < cols ∧ thr ≤ chm p.1 p.2) ∧
  st.peaks.Pairwise (fun p q => chm q.1 q.2 ≤ chm p.1 p.2 ∧
    (0 ≤ vwsRadius chm base scale power p →
      qpow (vwsRadius chm base scale power p) 2 < pixDistSq p q)) ∧
  (∀ p ∈ st.peaks, ∀ ir ic : Nat, ir < rows → ic < cols →
    0 ≤ vwsRadius chm base scale power p →
    pixDistSq p (ir, ic) ≤ qpow (vwsRadius chm base scale power p) 2 →
    st.mask ir ic = true)

/-- Concrete CHM tile on which the VWS exclusion property fails for an
adversarial parameter set (negative candidate threshold): a 1×3 strip with
heights 1, −5, −2. -/
def exVwsChm : Nat → Nat → ℚ :=
  fun _ c => if c = 0 then 1 else if c = 1 then -5 else -2

/-- Concrete CHM tile witnessing the amended VWS exclusion property: a 1×3
strip with heights 10, 0, 4. -/
def exVwsChm2 : Nat → Nat → ℚ :=
  fun _ c => if c = 0 then 10 else if c = 1 then 0 else 4


/-! ## Partitioner (`raster/partition.py`, via its spec) -/

/-- An axis-aligned pixel window `(col_off, row_off, width, height)` in a
parent raster's grid, offsets from the top-left. -/
structure PixWindow where
  col_off : Nat
  row_off : Nat
  w : Nat
  h : Nat
deriving DecidableEq, Repr

/-- Pixel `(r, c)` lies in the window (half-open extents). -/
def PixWindow.containsPix (wd : PixWindow) (r c : Nat) : Prop :=
  wd.row_off ≤ r ∧ r < wd.row_off + wd.h ∧ wd.col_off ≤ c ∧ c < wd.col_off + wd.w

instance (wd : PixWindow) (r c : Nat) : Decidable (wd.containsPix r c) := by
  unfold PixWindow.containsPix
  infer_instance

/-- Modelled from the spec: `iter_core_halo` lives in
`raster/partition.py`, which is not present in the source tree (only its
import, re-export and callers are).  Per §4.2 the underlying tile iterator
"yields fixed-size windows on a regular grid; at the right/bottom edge
windows are clipped to the parent", and the core boxes are the
non-overlapping grid windows themselves, which must "form an exact cover of
the parent's bounds".  The core boxes for a `width × height` raster and a
step of `tile_size` pixels, row-major. -/
def coreBoxes (width height tile_size : Nat) : List PixWindow :=
  (List.range ((height + tile_size - 1) / tile_size)).flatMap fun i =>
    (List.range ((width + tile_size - 1) / tile_size)).map fun j =>
      ⟨j * tile_size, i * tile_size,
        min tile_size (width - j * tile_size),
        min tile_size (height - i * tile_size)⟩

/-! ## Feature extractor (`extract.py`) -/

/-- The raster seen by the extractor: a pixel cube with a north-up
rectilinear transform (pixel sizes `px, py > 0`, top-left world corner
`(x0, y0)`), as produced by `rasterio.transform.from_origin` throughout the
repository. -/
structure XRaster where
  bands : Nat
  rows : Nat
  cols : Nat
  px : ℚ
  py : ℚ
  x0 : ℚ
  y0 : ℚ
  data : Nat → Nat → Nat → ℚ
  nodata : Option ℚ

/-- An axis-aligned polygon (`shapely.geometry.box`), the geometry shape
exercised by the repository's own tests and scenarios. -/
structure GeoBox where
  minx : ℚ
  miny : ℚ
  maxx : ℚ
  maxy : ℚ
deriving DecidableEq, Repr

/-- A pixel window with `Int` offsets, as rasterio `Window`s that may
extend outside the raster. -/
structure IntRect where
  col_off : Int
  row_off : Int
  w : Int
  h : Int
deriving DecidableEq, Repr

def PixWindow.toRect (T : PixWindow) : IntRect :=
  ⟨T.col_off, T.row_off, T.w, T.h⟩

/-- `Window(0, 0, raster.width, raster.height)`. -/
def fullRect (R : XRaster) : IntRect :=
  ⟨0, 0, R.cols, R.rows⟩

/-- `from_bounds(*geometry.bounds, transform).round_offsets().round_lengths()`
on the north-up transform: offsets and lengths floor-rounded (rasterio
defaults `op='floor'`). -/
def geomWindow (R : XRaster) (g : GeoBox) : IntRect :=
  ⟨⌊(g.minx - R.x0) / R.px⌋, ⌊(R.y0 - g.maxy) / R.py⌋,
   ⌊(g.maxx - g.minx) / R.px⌋, ⌊(g.maxy - g.miny) / R.py⌋⟩

/-- `Window.intersection`: `none` models the `WindowError` raised when the
windows do not overlap. -/
def rectIntersect (a b : IntRect) : Option IntRect :=
  let c0 := max a.col_off b.col_off
  let r0 := max a.row_off b.row_off
  let c1 := min (a.col_off + a.w) (b.col_off + b.w)
  let r1 := min (a.row_off + a.h) (b.row_off + b.h)
  if c0 < c1 ∧ r0 < r1 then some ⟨c0, r0, c1 - c0, r1 - r0⟩ else none

/-- The pixels of a window in row-major order (global grid coordinates;
used on windows already clipped to the grid, whose offsets are
non-negative). -/
def rectPixels (W : IntRect) : List (Nat × Nat) :=
  (List.range W.h.toNat).flatMap fun (i : Nat) =>
    (List.range W.w.toNat).map fun (j : Nat) =>
      ((W.row_off + (i : Int)).toNat, (W.col_off + (j : Int)).toNat)

/-- The strict rasterization rule of `geometry_mask(..., all_touched=False)`:
the pixel's center lies strictly inside the box. -/
def centerInside (R : XRaster) (g : GeoBox) (p : Nat × Nat) : Prop :=
  g.minx < R.x0 + ((p.2 : ℚ) + 1/2) * R.px ∧
  R.x0 + ((p.2 : ℚ) + 1/2) * R.px < g.maxx ∧
  g.miny < R.y0 - ((p.1 : ℚ) + 1/2) * R.py ∧
  R.y0 - ((p.1 : ℚ) + 1/2) * R.py < g.maxy

instance (R : XRaster) (g : GeoBox) (p : Nat × Nat) :
    Decidable (centerInside R g p) := by
  unfold centerInside
  infer_instance

/-- The `all_touched=True` rule: the pixel's square overlaps the box's
interior (positive overlap on each axis). -/
def pixelTouches (R : XRaster) (g : GeoBox) (p : Nat × Nat) : Prop :=
  g.minx < R.x0 + ((p.2 : ℚ) + 1) * R.px ∧
  R.x0 + (p.2 : ℚ) * R.px < g.maxx ∧
  g.miny < R.y0 - (p.1 : ℚ) * R.py ∧
  R.y0 - ((p.1 : ℚ) + 1) * R.py < g.maxy

instance (R : XRaster) (g : GeoBox) (p : Nat × Nat) :
    Decidable (pixelTouches R g p) := by
  unfold pixelTouches
  infer_instance

def strictPixels (R : XRaster) (g : GeoBox) (W : IntRect) :
    List (Nat × Nat) :=
  (rectPixels W).filter (fun p => decide (centerInside R g p))

def touchedPixels (R : XRaster) (g : GeoBox) (W : IntRect) :
    List (Nat × Nat) :=
  (rectPixels W).filter (fun p => decide (pixelTouches R g p))

/-- The mask construction of `_process_geometry_in_memory`: all-touched for
windows at most 2 pixels wide or high, else the strict rule with an
all-touched retry when the strict mask is empty. -/
def maskPixels (R : XRaster) (g : GeoBox) (W : IntRect) :
    List (Nat × Nat) :=
  if W.w ≤ 2 ∨ W.h ≤ 2 then touchedPixels R g W
  else if strictPixels R g W = [] then touchedPixels R g W
  else strictPixels R g W

/-- One pixel column survives the nodata and threshold screens: no band
equals the nodata sentinel and every band is strictly above the
threshold. -/
def validCol (R : XRaster) (thr : ℚ) (p : Nat × Nat) : Prop :=
  (∀ b < R.bands, ¬ R.nodata = some (R.data b p.1 p.2)) ∧
  (∀ b < R.bands, thr < R.data b p.1 p.2)

instance (R : XRaster) (thr : ℚ) (p : Nat × Nat) :
    Decidable (validCol R thr p) := by
  unfold validCol
  infer_instance

/-- The pixel columns `_process_geometry_in_memory` keeps for a feature on
the tile window `T`: clip the geometry's window to the tile, build the
mask, drop nodata and at-or-below-threshold columns; `none` models each of
the empty-result `return {}` exits. -/
def keptPixels (R : XRaster) (g : GeoBox) (T : IntRect) (thr : ℚ) :
    Option (List (Nat × Nat)) :=
  match rectIntersect T (geomWindow R g) with
  | none => none
  | some W =>
    if R.bands = 0 then none
    else if maskPixels R g W = [] then none
    else if (maskPixels R g W).filter (fun p => decide (validCol R thr p)) = [] then
      none
    else some ((maskPixels R g W).filter (fun p => decide (validCol R thr p)))

/-- Ascending insertion into a sorted list of values. -/
def insertAsc (x : ℚ) : List ℚ → List ℚ
  | [] => [x]
  | y :: ys => if x ≤ y then x :: y :: ys else y :: insertAsc x ys

/-- Ascending insertion sort (the sort behind `np.median`). -/
def sortAsc : List ℚ → List ℚ
  | [] => []
  | x :: xs => insertAsc x (sortAsc xs)

/-- `np.mean`. -/
def listMean (l : List ℚ) : ℚ :=
  l.sum / (l.length : ℚ)

/-- `np.median`: middle of the sorted values, mean of the two middles for
an even count. -/
def listMedian (l : List ℚ) : ℚ :=
  let s := sortAsc l
  if l.length % 2 = 1 then s.getD (l.length / 2) 0
  else (s.getD (l.length / 2 - 1) 0 + s.getD (l.length / 2) 0) / 2

/-- `np.min` on a non-empty array (0 for the empty list, never consulted). -/
def listMin : List ℚ → ℚ
  | [] => 0
  | x :: xs => xs.foldl min x

/-- `np.max` on a non-empty array. -/
def listMax : List ℚ → ℚ
  | [] => 0
  | x :: xs => xs.foldl max x

/-- `np.std` squared: the population variance.  The standard deviation
itself is an irrational square root; two std values are equal exactly when
their squares are, so records are compared through the variance. -/
def listVar (l : List ℚ) : ℚ :=
  ((l.map (fun x => (x - listMean l) ^ 2)).sum) / (l.length : ℚ)

/-- The per-band summary of an extraction record: median, mean, variance
(for `sd`), min, max. -/
structure BandStats where
  med : ℚ
  mean : ℚ
  sd2 : ℚ
  mn : ℚ
  mx : ℚ
deriving DecidableEq, Repr

def statsOfList (l : List ℚ) : BandStats :=
  ⟨listMedian l, listMean l, listVar l, listMin l, listMax l⟩

/-- The values of one band over the kept pixel columns, in kept order. -/
def bandValues (R : XRaster) (ps : List (Nat × Nat)) (b : Nat) : List ℚ :=
  ps.map (fun p => R.data b p.1 p.2)

/-- The statistics record (per band, 0-based) of a kept pixel set. -/
def statsRecord (R : XRaster) (ps : List (Nat × Nat)) : List BandStats :=
  (List.range R.bands).map (fun b => statsOfList (bandValues R ps b))

/-- The raw-values record (per band) of a kept pixel set. -/
def rawRecord (R : XRaster) (ps : List (Nat × Nat)) : List (List ℚ) :=
  (List.range R.bands).map (bandValues R ps)

/-- `_process_geometry_in_memory` with statistics output. -/
def processGeometryStats (R : XRaster) (g : GeoBox) (T : IntRect) (thr : ℚ) :
    Option (List BandStats) :=
  (keptPixels R g T thr).map (fun ps => statsRecord R ps)

/-- `_process_geometry_in_memory` with `return_raw=True` output (the
boundary-buffer visits). -/
def processGeometryRaw (R : XRaster) (g : GeoBox) (T : IntRect) (thr : ℚ) :
    Option (List (List ℚ)) :=
  (keptPixels R g T thr).map (fun ps => rawRecord R ps)

/-- World bounds of a tile window under the raster's transform. -/
def tileWorldBox (R : XRaster) (T : PixWindow) : GeoBox :=
  ⟨R.x0 + (T.col_off : ℚ) * R.px, R.y0 - ((T.row_off : ℚ) + (T.h : ℚ)) * R.py,
   R.x0 + ((T.col_off : ℚ) + (T.w : ℚ)) * R.px, R.y0 - (T.row_off : ℚ) * R.py⟩

/-- World bounds of the whole raster. -/
def rasterWorldBox (R : XRaster) : GeoBox :=
  ⟨R.x0, R.y0 - (R.rows : ℚ) * R.py, R.x0 + (R.cols : ℚ) * R.px, R.y0⟩

/-- `shapely` `intersects` on two boxes (touching counts). -/
def boxIntersects (a b : GeoBox) : Prop :=
  a.minx ≤ b.maxx ∧ b.minx ≤ a.maxx ∧ a.miny ≤ b.maxy ∧ b.miny ≤ a.maxy

instance (a b : GeoBox) : Decidable (boxIntersects a b) := by
  unfold boxIntersects
  infer_instance

/-- `shapely` `within` on two boxes (`a` inside `b`, boundary allowed). -/
def boxWithin (a b : GeoBox) : Prop :=
  b.minx ≤ a.minx ∧ a.maxx ≤ b.maxx ∧ b.miny ≤ a.miny ∧ a.maxy ≤ b.maxy

instance (a b : GeoBox) : Decidable (boxWithin a b) := by
  unfold boxWithin
  infer_instance

/-- The cross-suspension state of `extract_features` for one feature:
the emitted record (`fully_processed_ids`) and the boundary buffer. -/
structure ExtractState where
  emitted : Option (List BandStats)
  buffer : Option (List (List ℚ))

/-- `boundary_buffer[crown_id][key].extend(val)`. -/
def bufferExtend (buf : Option (List (List ℚ))) (raws : List (List ℚ)) :
    Option (List (List ℚ)) :=
  match buf with
  | none => some raws
  | some old => some (List.zipWith (fun a b => a ++ b) old raws)

/-- One tile visit of `_execute_intersection` for one feature: skip if
already fully processed or if the feature does not intersect the tile box;
a fully-within feature is processed once and emitted; a boundary-crossing
visit is forced to raw pixels and accumulated. -/
def extractStep (R : XRaster) (g : GeoBox) (thr : ℚ) (st : ExtractState)
    (T : PixWindow) : ExtractState :=
  if st.emitted.isSome then st
  else if ¬ boxIntersects g (tileWorldBox R T) then st
  else if boxWithin g (tileWorldBox R T) then
    match processGeometryStats R g T.toRect thr with
    | none => st
    | some rec => { st with emitted := some rec }
  else
    match processGeometryRaw R g T.toRect thr with
    | none => st
    | some raws => { st with buffer := bufferExtend st.buffer raws }

/-- `extract_features` for one feature over a streamed tile partition
(`BLOCKED` = native block windows, `TILED` = the fixed grid): the tile
loop, then the boundary-buffer finalization that converts concatenated raw
pixels into statistics; `none` when no record is emitted. -/
def extractOne (R : XRaster) (tiles : List PixWindow) (g : GeoBox)
    (thr : ℚ) : Option (List BandStats) :=
  let fin := tiles.foldl (extractStep R g thr) ⟨none, none⟩
  match fin.emitted with
  | some rec => some rec
  | none =>
    match fin.buffer with
    | some lists => some (lists.map statsOfList)
    | none => none

/-- `extract_features` for one feature in `IN_MEMORY` mode: the whole
raster is one tile with `window=None`, so the feature counts as fully
within and is processed once. -/
def extractInMemory (R : XRaster) (g : GeoBox) (thr : ℚ) :
    Option (List BandStats) :=
  if boxIntersects g (rasterWorldBox R) then
    processGeometryStats R g (fullRect R) thr
  else none


/-- The per-band boundary-buffer content after the tile stream: the kept raw
pixel values of every tile visit, concatenated in tile order (tiles whose
visit produced nothing contribute nothing). -/
def bufferedValues (R : XRaster) (g : GeoBox) (thr : ℚ)
    (tiles : List IntRect) (b : Nat) : List ℚ :=
  ((tiles.map (fun T => (keptPixels R g T thr).getD [])).flatten).map
    (fun p => R.data b p.1 p.2)

/-- Concrete single-band raster for the threshold claims: 1×2 pixels with
values 1 and 100, unit pixels, top-left at `(0, 1)`. -/
def exRaster3 : XRaster :=
  ⟨1, 1, 2, 1, 1, 0, 1, fun _ _ c => if c = 0 then 1 else 100, none⟩

/-- Box covering all of `exRaster3`. -/
def exGeom3 : GeoBox :=
  ⟨0, 0, 2, 1⟩

/-- The pixels of the tile-clipped geometry window for one feature (empty
when the tile window and the geometry window miss each other). -/
def tilePix (R : XRaster) (g : GeoBox) (T : PixWindow) : List (Nat × Nat) :=
  match rectIntersect T.toRect (geomWindow R g) with
  | some W => rectPixels W
  | none => []

/-- The pixel columns one tile visit keeps for a feature (empty when the
visit produces nothing). -/
def tileKept (R : XRaster) (g : GeoBox) (thr : ℚ) (T : PixWindow) :
    List (Nat × Nat) :=
  (keptPixels R g T.toRect thr).getD []

/-- Every tile's kept pixel columns, concatenated in tile order. -/
def tilesKept (R : XRaster) (g : GeoBox) (thr : ℚ)
    (tiles : List PixWindow) : List (Nat × Nat) :=
  (tiles.map (tileKept R g thr)).flatten

/-- The boundary-buffer encoding of an accumulated kept pixel list: absent
while nothing has been accumulated, else the per-band raw value lists. -/
def pixBuffer (R : XRaster) (K : List (Nat × Nat)) :
    Option (List (List ℚ)) :=
  if K = [] then none else some (rawRecord R K)

/-- Single-band 4×4 raster whose column 0 holds the outlier value 100 and
every other pixel holds 1; unit pixels, top-left world corner `(0, 4)`. -/
def exRaster2 : XRaster :=
  ⟨1, 4, 4, 1, 1, 0, 4, fun _ _ c => if c = 0 then 100 else 1, none⟩

/-- A polygon strictly inside `exRaster2` whose pixel window is 3 pixels
wide globally but only 1 pixel wide inside the first tile strip. -/
def exGeom2 : GeoBox :=
  ⟨3/5, 1/4, 19/5, 15/4⟩

/-- A two-tile partition of `exRaster2`: a 1-pixel-wide strip and the
rest. -/
def exTiles2 : List PixWindow :=
  [⟨0, 0, 1, 4⟩, ⟨1, 0, 3, 4⟩]

/-- Single-band constant 3×6 raster, unit pixels, top-left world corner
`(0, 3)`. -/
def exRaster4 : XRaster :=
  ⟨1, 3, 6, 1, 1, 0, 3, fun _ _ _ => 1, none⟩

/-- Box covering all of `exRaster4`. -/
def exGeom4 : GeoBox :=
  ⟨0, 0, 6, 3⟩

/-- A two-tile partition of `exRaster4` into two 3×3 tiles. -/
def exTiles4 : List PixWindow :=
  [⟨0, 0, 3, 3⟩, ⟨3, 0, 3, 3⟩]

theorem chmOutNodata_eq (dsm : ChmTile) :
    chmOutNodata dsm = if dsm.nodata.isSome then dsm.nodata.getD 0 else NODATA_VAL := by
  cases h : dsm.nodata <;> simp [chmOutNodata, h]

theorem medianOfWindow_nonneg (l : List ℚ) (h : ∀ x ∈ l, 0 ≤ x) :
    0 ≤ medianOfWindow l := by
  unfold medianOfWindow
  rcases Nat.lt_or_ge (l.length / 2) ((l.mergeSort (fun a b => a ≤ b)).length)
    with hlt | hge
  · rw [List.getD_eq_getElem _ _ hlt]
    exact h _ ((List.mergeSort_perm l _).mem_iff.mp (List.getElem_mem hlt))
  · rw [List.getD_eq_default _ _ hge]

theorem computeRawChmPixel_valid (hasD : Bool) (dN : ℚ) (hasT : Bool) (tN : ℚ)
    (oN : ℚ) (d t : ℚ)
    (hd : hasD = true → d ≠ dN) (ht : hasT = true → t ≠ tN) :
    computeRawChmPixel hasD dN hasT tN oN d t = (max 0 (d - t), true) := by
  unfold computeRawChmPixel
  have h1 : (hasD && decide (d = dN)) = false := by
    cases hasD
    · rfl
    · simpa using hd rfl
  have h2 : (hasT && decide (t = tN)) = false := by
    cases hasT
    · rfl
    · simpa using ht rfl
  rw [h1, h2]
  rfl

theorem computeRawChm_nonneg_of_valid (dsm dtm : Nat → Nat → ℚ)
    (hasD : Bool) (dN : ℚ) (hasT : Bool) (tN : ℚ) (oN : ℚ) (i j : Nat)
    (hv : (computeRawChm dsm dtm hasD dN hasT tN oN).2 i j = true) :
    0 ≤ (computeRawChm dsm dtm hasD dN hasT tN oN).1 i j := by
  unfold computeRawChm computeRawChmPixel at *
  by_cases hc : ((hasD && decide (dsm i j = dN)) || (hasT && decide (dtm i j = tN))) = true
  · simp only [hc, if_true] at hv
    simp at hv
  · simp only [Bool.not_eq_true] at hc
    simp only [hc, Bool.false_eq_true, if_false]
    exact le_max_left 0 _

/-- **C1.** The CHM block function: at every pixel where both inputs are
valid (neither equals its nodata sentinel), the raw CHM is
`max 0 (DSM − DTM)` and is returned as-is for `filter_size = 0`; every pixel
where either input equals its sentinel carries the output nodata sentinel,
for every `filter_size`; for `filter_size > 0` a valid pixel holds the
median-filter value of the zero-filled raw CHM; consequently every valid
output pixel is `≥ 0` for every `filter_size ≥ 0`. -/
theorem chm_block_spec (dsm dtm : ChmTile) (filter_size : Nat) (r c : Nat)
    (hr : r < dsm.rows) (hc : c < dsm.cols) :
    ((chmBlock dsm dtm filter_size).nodata = some (chmOutNodata dsm)) ∧
    ((dsm.nodata = some (dsm.vals r c) ∨ dtm.nodata = some (dtm.vals r c)) →
      (chmBlock dsm dtm filter_size).vals r c = chmOutNodata dsm) ∧
    (dsm.nodata ≠ some (dsm.vals r c) → dtm.nodata ≠ some (dtm.vals r c) →
      (filter_size = 0 →
        (chmBlock dsm dtm filter_size).vals r c =
          max 0 (dsm.vals r c - dtm.vals r c)) ∧
      0 ≤ (chmBlock dsm dtm filter_size).vals r c) := by
  classical
  set hasD := dsm.nodata.isSome with hhasD
  set dN := dsm.nodata.getD 0 with hdN
  set hasT := dtm.nodata.isSome with hhasT
  set tN := dtm.nodata.getD 0 with htN
  set oN := if hasD then dN else NODATA_VAL with hoN
  have hoN2 : chmOutNodata dsm = oN := by
    rw [chmOutNodata_eq]
  have hinvalid : ∀ i j, (dsm.nodata = some (dsm.vals i j) ∨
      dtm.nodata = some (dtm.vals i j)) →
      computeRawChmPixel hasD dN hasT tN oN (dsm.vals i j) (dtm.vals i j)
        = (oN, false) := by
    intro i j hij
    unfold computeRawChmPixel
    rcases hij with hij | hij
    · have h1 : (hasD && decide (dsm.vals i j = dN)) = true := by
        rw [hhasD, hdN, hij]; simp
      rw [h1]; simp
    · have h1 : (hasT && decide (dtm.vals i j = tN)) = true := by
        rw [hhasT, htN, hij]; simp
      rw [h1]; simp
  have hvalid : ∀ i j, dsm.nodata ≠ some (dsm.vals i j) →
      dtm.nodata ≠ some (dtm.vals i j) →
      computeRawChmPixel hasD dN hasT tN oN (dsm.vals i j) (dtm.vals i j)
        = (max 0 (dsm.vals i j - dtm.vals i j), true) := by
    intro i j h1 h2
    apply computeRawChmPixel_valid
    · intro hD hEq
      rcases Option.isSome_iff_exists.mp (hhasD ▸ hD) with ⟨x, hx⟩
      apply h1
      rw [hx] at hdN ⊢
      simp only [Option.getD_some] at hdN
      rw [hEq, hdN]
    · intro hT hEq
      rcases Option.isSome_iff_exists.mp (hhasT ▸ hT) with ⟨x, hx⟩
      apply h2
      rw [hx] at htN ⊢
      simp only [Option.getD_some] at htN
      rw [hEq, htN]
  set raw := computeRawChm dsm.vals dtm.vals hasD dN hasT tN oN with hraw
  have hraw1 : ∀ i j, raw.1 i j =
      (computeRawChmPixel hasD dN hasT tN oN (dsm.vals i j) (dtm.vals i j)).1 := by
    intro i j; rw [hraw]; rfl
  have hraw2 : ∀ i j, raw.2 i j =
      (computeRawChmPixel hasD dN hasT tN oN (dsm.vals i j) (dtm.vals i j)).2 := by
    intro i j; rw [hraw]; rfl
  have hblock : chmBlock dsm dtm filter_size =
      if filter_size > 0 then
        ⟨dsm.rows, dsm.cols,
          fun i j => if raw.2 i j then
            medianFilter dsm.rows dsm.cols filter_size
              (fun i j => if raw.2 i j then raw.1 i j else 0) i j
          else oN,
          some oN⟩
      else ⟨dsm.rows, dsm.cols, raw.1, some oN⟩ := by
    rw [chmBlock.eq_1]
  refine ⟨?_, ?_, ?_⟩
  · rw [hblock, hoN2]
    split <;> rfl
  · intro hij
    have hfalse : raw.2 r c = false := by
      rw [hraw2, hinvalid r c hij]
    rw [hblock, hoN2]
    split
    · dsimp only
      rw [hfalse]
      simp
    · dsimp only
      rw [hraw1, hinvalid r c hij]
  · intro h1 h2
    have htrue : raw.2 r c = true := by
      rw [hraw2, hvalid r c h1 h2]
    constructor
    · intro hf0
      rw [hblock]
      simp only [hf0, gt_iff_lt, Nat.lt_irrefl, if_false]
      rw [hraw1, hvalid r c h1 h2]
    · rw [hblock]
      by_cases hfs : filter_size > 0
      · simp only [hfs, if_true]
        rw [htrue]
        simp only [if_true]
        unfold medianFilter
        apply medianOfWindow_nonneg
        intro x hx
        simp only [medianNeighborhood, List.mem_flatMap, List.mem_map] at hx
        obtain ⟨dr, _, dc, _, hval⟩ := hx
        rw [← hval]
        split
        next hvij => exact computeRawChm_nonneg_of_valid _ _ _ _ _ _ _ _ _ hvij
        next => exact le_refl 0
      · rw [if_neg hfs]
        exact computeRawChm_nonneg_of_valid _ _ _ _ _ _ _ _ _ htrue


theorem chm_block_spec_witness :
    0 ≤ (chmBlock exDsmTile exDtmTile 3).vals 0 0 ∧
    (chmBlock exDsmTile exDtmTile 3).vals 0 1 = chmOutNodata exDsmTile ∧
    (chmBlock exDsmTile exDtmTile 0).vals 0 0 =
      max 0 (exDsmTile.vals 0 0 - exDtmTile.vals 0 0) :=
  ⟨((chm_block_spec exDsmTile exDtmTile 3 0 0 (by decide) (by decide)).2.2
      (by decide) (by decide)).2,
   (chm_block_spec exDsmTile exDtmTile 3 0 1 (by decide) (by decide)).2.1
      (Or.inl (by decide)),
   ((chm_block_spec exDsmTile exDtmTile 0 0 0 (by decide) (by decide)).2.2
      (by decide) (by decide)).1 rfl⟩

/-- **C7.** Auto mode selection: `IN_MEMORY` exactly when the memory estimate
is safe; otherwise `BLOCKED` when the raster is tiled and `TILED` when it is
strip-oriented, where strip-oriented means the first band's block width
equals the raster width or its block height equals 1. -/
theorem determine_strategy_auto_mode (e : MemoryEstimate) (hd : RasterHeader)
    (bh bw : Nat) (rest : List (Nat × Nat))
    (hbs : hd.blockShapes = (bh, bw) :: rest) :
    (determineStrategy e (analyzeStructure hd) "auto").map StrategyReport.mode =
      .ok (if e.is_safe then ProcessingMode.in_memory
        else if bw = hd.width ∨ bh = 1 then ProcessingMode.tiled
        else ProcessingMode.blocked) := by
  unfold determineStrategy analyzeStructure
  rw [hbs]
  by_cases hs : e.is_safe
  · simp [hs, Except.map]
  · by_cases hsp : bw = hd.width ∨ bh = 1
    · have hb : ((bw == hd.width) || (bh == 1)) = true := by
        rcases hsp with h | h <;> simp [h]
      simp [hs, hsp, BlockStructure.recommendBlocked, hb, Except.map]
    · have hb : ((bw == hd.width) || (bh == 1)) = false := by
        push_neg at hsp
        simp [hsp.1, hsp.2]
      simp [hs, hsp, BlockStructure.recommendBlocked, hb, Except.map]

theorem determine_strategy_auto_mode_witness :
    (determineStrategy ⟨100, 50, false, "probe"⟩
        (analyzeStructure ⟨512, 512, [(256, 256)]⟩) "auto").map
        StrategyReport.mode =
      .ok ProcessingMode.blocked := by
  rw [determine_strategy_auto_mode ⟨100, 50, false, "probe"⟩
    ⟨512, 512, [(256, 256)]⟩ 256 256 [] rfl]
  rfl

/-- **C4.** An explicit `in_memory` request on a raster whose memory probe is
unsafe is honored silently: `determine_strategy` returns mode `IN_MEMORY`
with the "User forced mode" reason and raises no error, contradicting the
claim (and the function's own docstring, "only if safe"); the same unsafe
probe in auto mode is downgraded without error. -/
theorem forced_in_memory_ignores_unsafe_probe :
    determineStrategy ⟨10 ^ 12, 10 ^ 9, false, "Req"⟩ ⟨true, false, (256, 256)⟩
        "in_memory" =
      .ok ⟨ProcessingMode.in_memory, "User forced mode: in_memory",
        ⟨10 ^ 12, 10 ^ 9, false, "Req"⟩, ⟨true, false, (256, 256)⟩⟩ ∧
    (determineStrategy ⟨10 ^ 12, 10 ^ 9, false, "Req"⟩ ⟨true, false, (256, 256)⟩
        "auto").map StrategyReport.mode = .ok ProcessingMode.blocked := by
  constructor <;> rfl

/-- **C10.** `Raster.__eq__` compares only transform, CRS, nodata, shape and
pixel data: two envelopes agreeing on those compare equal whatever their
band-name tables. -/
theorem raster_eq_ignores_band_names (x y : Raster)
    (ht : x.transform = y.transform) (hcrs : x.crs = y.crs)
    (hn : x.nodata = y.nodata) (hb : x.bands = y.bands) (hrw : x.rows = y.rows)
    (hcl : x.cols = y.cols)
    (hdata : ∀ b < x.bands, ∀ i < x.rows, ∀ j < x.cols,
      x.data b i j = y.data b i j) :
    rasterEq x y = true := by
  unfold rasterEq arrayEqual
  simp [ht, hcrs, hn, hb, hrw, hcl]
  intro b hbb i hii j hjj
  rw [← hb] at hbb
  rw [← hrw] at hii
  rw [← hcl] at hjj
  exact hdata b hbb i hii j hjj

theorem raster_eq_ignores_band_names_witness :
    rasterEq exRaster exRasterNoNames = true ∧
    exRaster.band_names ≠ exRasterNoNames.band_names :=
  ⟨raster_eq_ignores_band_names exRaster exRasterNoNames rfl rfl rfl rfl rfl rfl
      (fun _ _ _ _ _ _ => rfl),
    by decide⟩

theorem splitComp_bands (r : Raster) (i : Nat) : (splitComp r i).bands = 1 := rfl

theorem splitComp_dims (r : Raster) (i : Nat) :
    (splitComp r i).rows = r.rows ∧ (splitComp r i).cols = r.cols := ⟨rfl, rfl⟩

theorem stackedValue_range' (r : Raster) :
    ∀ (n k b i j : Nat), b < n →
      stackedValue ((List.range' k n).map (splitComp r)) b i j = r.data (k + b) i j := by
  intro n
  induction n with
  | zero => intro k b i j hb; omega
  | succ m ih =>
    intro k b i j hb
    rw [List.range'_succ]
    show stackedValue (splitComp r k :: (List.range' (k + 1) m).map (splitComp r)) b i j = _
    rw [stackedValue.eq_2]
    by_cases hb1 : b < (splitComp r k).bands
    · rw [if_pos hb1]
      rw [splitComp_bands] at hb1
      interval_cases b
      rfl
    · rw [if_neg hb1]
      rw [splitComp_bands] at hb1
      have hbge : 1 ≤ b := by omega
      rw [splitComp_bands]
      rw [ih (k + 1) (b - 1) i j (by omega)]
      congr 1
      omega

theorem stackedValue_past_end (cs : List Raster) (hone : ∀ s ∈ cs, s.bands = 1) :
    ∀ (b i j : Nat), cs.length ≤ b → stackedValue cs b i j = 0 := by
  induction cs with
  | nil => intro b i j _; rfl
  | cons hd tl ih =>
    intro b i j hb
    rw [stackedValue.eq_2]
    have h1 : hd.bands = 1 := hone hd (List.mem_cons_self hd tl)
    have hb2 : tl.length + 1 ≤ b := by simpa using hb
    have hnb : ¬ b < hd.bands := by rw [h1]; omega
    rw [if_neg hnb]
    exact ih (fun s hs => hone s (List.mem_cons_of_mem hd hs)) _ i j (by omega)

/-- **C9.** Evaluation of the stack/split round trip: because `stack_bands`
seeds `total_bands` with `ref.count` and then adds the count of every member
of `processing_list` (which contains `ref` again), the stacked envelope has
one extra trailing band left at the `np.zeros` fill; so its pixel array is
not identical to the input's (the repository's own integration test asserts
`np.array_equal(stacked.data, working_raster.data)`). -/
theorem stack_split_adds_zero_band (r : Raster) (h : 0 < r.bands) :
    ∃ s, stackBands (splitBands r) = .ok s ∧
      s.bands = r.bands + 1 ∧
      (∀ b i j, b < r.bands → s.data b i j = r.data b i j) ∧
      (∀ i j, s.data r.bands i j = 0) := by
  have hmem : ∀ s ∈ splitBands r, s.bands = 1 ∧ s.rows = r.rows ∧ s.cols = r.cols := by
    intro s hs
    rcases List.mem_map.mp hs with ⟨i, _, hi⟩
    rw [← hi]
    exact ⟨rfl, rfl, rfl⟩
  have hlen : (splitBands r).length = r.bands := by
    unfold splitBands
    rw [List.length_map, List.length_range]
  cases hl : splitBands r with
  | nil => rw [hl] at hlen; simp at hlen; omega
  | cons ref rest =>
    have href : ref ∈ splitBands r := by rw [hl]; exact List.mem_cons_self _ _
    have hcheck : (ref :: rest).any
        (fun s => !(s.cols == ref.cols) || !(s.rows == ref.rows)) = false := by
      rw [List.any_eq_false]
      intro s hs
      have hsdim := hmem s (by rw [hl]; exact hs)
      have hrdim := hmem ref href
      simp [hsdim.2.1, hsdim.2.2, hrdim.2.1, hrdim.2.2]
    have hsum : ((ref :: rest).map Raster.bands).sum = r.bands := by
      have hall : (ref :: rest).map Raster.bands =
          List.replicate ((ref :: rest).map Raster.bands).length 1 := by
        apply List.eq_replicate_of_mem
        intro x hx
        rcases List.mem_map.mp hx with ⟨s, hs, hxs⟩
        rw [← hxs]
        exact (hmem s (by rw [hl]; exact hs)).1
      rw [hall, List.sum_replicate, smul_eq_mul, mul_one, List.length_map,
        ← hl, hlen]
    have hstack : stackBands (ref :: rest) =
        .ok ⟨ref.bands + ((ref :: rest).map Raster.bands).sum,
          ref.rows, ref.cols, stackedValue (ref :: rest),
          ref.transform, ref.crs, ref.nodata,
          stackBandNames (ref :: rest) 0 []⟩ := by
      rw [stackBands.eq_2]
      rw [hcheck]
      simp only [Bool.false_eq_true, if_false]
    refine ⟨_, hstack, ?_, ?_, ?_⟩
    · show ref.bands + ((ref :: rest).map Raster.bands).sum = r.bands + 1
      rw [hsum, (hmem ref href).1]
      omega
    · intro b i j hb
      show stackedValue (ref :: rest) b i j = r.data b i j
      rw [← hl]
      unfold splitBands
      rw [List.range_eq_range']
      rw [stackedValue_range' r r.bands 0 b i j hb]
      rw [Nat.zero_add]
    · intro i j
      show stackedValue (ref :: rest) r.bands i j = 0
      rw [← hl]
      exact stackedValue_past_end (splitBands r) (fun s hs => (hmem s hs).1)
        r.bands i j (le_of_eq hlen)

theorem stack_split_adds_zero_band_witness :
    0 < exRaster.bands ∧
    ∃ s, stackBands (splitBands exRaster) = .ok s ∧
      s.bands = exRaster.bands + 1 ∧
      (∀ b i j, b < exRaster.bands → s.data b i j = exRaster.data b i j) ∧
      (∀ i j, s.data exRaster.bands i j = 0) :=
  ⟨by decide, stack_split_adds_zero_band exRaster (by decide)⟩

/-- **C5.** `delineation_method = "region_growing"` cannot run the ringed
kernel with the fields declared in `DelineationParams`:
`_run_region_growing` reads `smoothing_sigma`, `max_canopy_spread` and
`core_inclusion`, none of which the dataclass declares (it declares
`watershed_sigma`, `max_crown_radius`, `crown_threshold`), so the first such
read raises `AttributeError` on every tile with treetops, before the
padding, the ring precomputation and the `h × pixel_count ≤
cumulative_height × crown_threshold` test are ever reached. -/
theorem region_growing_kernel_unreachable (rows cols : Nat)
    (chm : Nat → Nat → ℚ) (p : DelineationParams) :
    runRegionGrowingInputs rows cols chm p = none ∧
    p.attr "smoothing_sigma" = none ∧
    p.attr "max_canopy_spread" = none ∧
    p.attr "core_inclusion" = none ∧
    p.attr "watershed_sigma" = some p.watershed_sigma ∧
    p.attr "max_crown_radius" = some p.max_crown_radius ∧
    p.attr "crown_threshold" = some p.crown_threshold :=
  ⟨rfl, rfl, rfl, rfl, rfl, rfl, rfl⟩

/-- **C6 counterexample.** With `base_distance = 0`, `height_scale = 1`,
`power = 2` and candidate threshold `−5`, the VWS kernel on the 1×3 strip
`[1, −5, −2]` returns the peaks `(0,0)` and `(0,2)`, and the earlier peak
`(0,0)` lies inside the exclusion disk of the later peak `(0,2)` (radius
`(−2)² = 4`, distance `2`): two returned peaks do lie within the exclusion
disk of one of them. -/
theorem vws_exclusion_counterexample :
    detectPeaksVws 1 3 exVwsChm 0 1 (-5) 2 = [(0, 0), (0, 2)] ∧
    inExclusionDisk (vwsRadius exVwsChm 0 1 2 (0, 2)) (0, 2) (0, 0) := by
  constructor
  · norm_num [detectPeaksVws, vwsSorted, vwsCandidates, sortDesc, insertDesc,
      vwsStep, vwsMaskCond, flatVal, exVwsChm, pytrunc, qpow, List.range_succ,
      List.foldl, List.filter, Int.ceil_neg, Int.floor_ofNat, Int.floor_one]
  · refine ⟨?_, ?_⟩ <;>
      norm_num [vwsRadius, pixDistSq, qpow, exVwsChm]

theorem qpow_eq_pow (x : ℚ) (n : Nat) : qpow x n = x ^ n := by
  induction n with
  | zero => rfl
  | succ m ih => rw [qpow, ih, pow_succ]; ring

theorem pixDistSq_comm (p q : Nat × Nat) : pixDistSq p q = pixDistSq q p := by
  unfold pixDistSq
  rw [qpow_eq_pow, qpow_eq_pow, qpow_eq_pow, qpow_eq_pow]
  ring

theorem mem_insertDesc (val : Nat → ℚ) (x : Nat) (l : List Nat) (a : Nat) :
    a ∈ insertDesc val x l ↔ a = x ∨ a ∈ l := by
  induction l with
  | nil => simp [insertDesc]
  | cons y ys ih =>
    unfold insertDesc
    split
    · simp [or_comm, or_assoc, or_left_comm]
    · simp only [List.mem_cons, ih]
      tauto

theorem mem_sortDesc (val : Nat → ℚ) (l : List Nat) (a : Nat) :
    a ∈ sortDesc val l ↔ a ∈ l := by
  induction l with
  | nil => simp [sortDesc]
  | cons y ys ih =>
    unfold sortDesc
    rw [mem_insertDesc]
    simp [ih]

theorem pairwise_insertDesc (val : Nat → ℚ) (x : Nat) (l : List Nat)
    (hl : l.Pairwise (fun a b => val b ≤ val a)) :
    (insertDesc val x l).Pairwise (fun a b => val b ≤ val a) := by
  induction l with
  | nil => simp [insertDesc]
  | cons y ys ih =>
    rcases List.pairwise_cons.mp hl with ⟨hy, hys⟩
    unfold insertDesc
    split
    next hlt =>
      refine List.pairwise_cons.mpr ⟨?_, hl⟩
      intro b hb
      rcases List.mem_cons.mp hb with rfl | hb
      · exact le_of_lt hlt
      · exact le_trans (hy b hb) (le_of_lt hlt)
    next hge =>
      refine List.pairwise_cons.mpr ⟨?_, ih hys⟩
      intro b hb
      rcases (mem_insertDesc val x ys b).mp hb with rfl | hb
      · exact not_lt.mp hge
      · exact hy b hb

theorem pairwise_sortDesc (val : Nat → ℚ) (l : List Nat) :
    (sortDesc val l).Pairwise (fun a b => val b ≤ val a) := by
  induction l with
  | nil => simp [sortDesc]
  | cons y ys ih => exact pairwise_insertDesc val y (sortDesc val ys) ih

theorem pytrunc_le_of_le (x : ℚ) (n : Int) (h : x ≤ n) : pytrunc x ≤ n := by
  unfold pytrunc
  split
  · have := Int.ceil_le.mpr h
    exact this
  · exact le_trans (Int.floor_le_floor h) (le_of_eq (Int.floor_intCast n))

theorem lt_pytrunc_of_le (x : ℚ) (n : Int) (hn : 0 ≤ n) (h : (n : ℚ) + 1 ≤ x) :
    n < pytrunc x := by
  have hx : ¬ x < 0 := by
    push_neg
    have h1 : (0 : ℚ) ≤ (n : ℚ) + 1 := by
      have : (0 : ℚ) ≤ (n : ℚ) := by exact_mod_cast hn
      linarith
    linarith
  unfold pytrunc
  rw [if_neg hx]
  have h2 : ((n + 1 : Int) : ℚ) ≤ x := by push_cast; linarith
  have h3 := Int.le_floor.mpr h2
  omega

theorem vwsMaskCond_of_disk (rows cols r c ir ic : Nat) (dyn : ℚ)
    (hir : ir < rows) (hic : ic < cols) (hdyn : 0 ≤ dyn)
    (hd : qpow ((ir : ℚ) - r) 2 + qpow ((ic : ℚ) - c) 2 ≤ qpow dyn 2) :
    vwsMaskCond rows cols r c dyn ir ic := by
  have hd2 := hd
  rw [qpow_eq_pow, qpow_eq_pow, qpow_eq_pow] at hd2
  have hr2 : ((ir : ℚ) - r) ^ 2 ≤ dyn ^ 2 := by nlinarith [sq_nonneg ((ic : ℚ) - c)]
  have hc2 : ((ic : ℚ) - c) ^ 2 ≤ dyn ^ 2 := by nlinarith [sq_nonneg ((ir : ℚ) - r)]
  have hrlo : (r : ℚ) - dyn ≤ ir := by nlinarith [sq_nonneg ((ir : ℚ) - r + dyn)]
  have hrhi : (ir : ℚ) ≤ r + dyn := by nlinarith [sq_nonneg ((ir : ℚ) - r - dyn)]
  have hclo : (c : ℚ) - dyn ≤ ic := by nlinarith [sq_nonneg ((ic : ℚ) - c + dyn)]
  have hchi : (ic : ℚ) ≤ c + dyn := by nlinarith [sq_nonneg ((ic : ℚ) - c - dyn)]
  refine ⟨?_, ?_, ?_, ?_, hd⟩
  · rw [max_le_iff]
    constructor
    · exact_mod_cast Nat.zero_le ir
    · apply pytrunc_le_of_le
      push_cast
      linarith
  · rw [lt_min_iff]
    constructor
    · exact_mod_cast hir
    · apply lt_pytrunc_of_le
      · exact_mod_cast Nat.zero_le ir
      · push_cast
        linarith
  · rw [max_le_iff]
    constructor
    · exact_mod_cast Nat.zero_le ic
    · apply pytrunc_le_of_le
      push_cast
      linarith
  · rw [lt_min_iff]
    constructor
    · exact_mod_cast hic
    · apply lt_pytrunc_of_le
      · exact_mod_cast Nat.zero_le ic
      · push_cast
        linarith

theorem qpow_two_sub_comm (a b : ℚ) : qpow (a - b) 2 = qpow (b - a) 2 := by
  rw [qpow_eq_pow, qpow_eq_pow]
  ring

theorem vwsStep_eq (rows cols : Nat) (chm : Nat → Nat → ℚ)
    (base scale : ℚ) (power : Nat) (st : VwsState) (i : Nat) :
    vwsStep rows cols chm base scale power st i =
      if st.mask (i / cols) (i % cols) then st
      else ⟨st.peaks ++ [(i / cols, i % cols)],
        fun ir ic => st.mask ir ic ||
          decide (vwsMaskCond rows cols (i / cols) (i % cols)
            (base + qpow (chm (i / cols) (i % cols)) power * scale) ir ic)⟩ :=
  rfl

theorem vwsFold_inv (rows cols : Nat) (chm : Nat → Nat → ℚ)
    (base scale thr : ℚ) (power : Nat) :
    ∀ (l : List Nat) (st : VwsState),
      (∀ i ∈ l, i < rows * cols) →
      (∀ i ∈ l, thr ≤ flatVal cols chm i) →
      l.Pairwise (fun a b => flatVal cols chm b ≤ flatVal cols chm a) →
      (∀ i ∈ l, ∀ p ∈ st.peaks, flatVal cols chm i ≤ chm p.1 p.2) →
      VwsInv rows cols chm base scale thr power st →
      VwsInv rows cols chm base scale thr power
        (l.foldl (vwsStep rows cols chm base scale power) st) := by
  intro l
  induction l with
  | nil => intro st _ _ _ _ hinv; exact hinv
  | cons i l2 ih =>
    intro st hrange hthr hsort hle hinv
    rw [List.foldl_cons]
    have hi : i < rows * cols := hrange i (List.mem_cons_self i l2)
    have hcols : 0 < cols := by
      rcases Nat.eq_zero_or_pos cols with hc | hc
      · rw [hc, Nat.mul_zero] at hi; omega
      · exact hc
    have hrlt : i / cols < rows := Nat.div_lt_of_lt_mul (Nat.mul_comm rows cols ▸ hi)
    have hclt : i % cols < cols := Nat.mod_lt i hcols
    rcases List.pairwise_cons.mp hsort with ⟨hsort_head, hsort_tail⟩
    by_cases hmask : st.mask (i / cols) (i % cols) = true
    · rw [vwsStep_eq, if_pos hmask]
      exact ih st (fun j hj => hrange j (List.mem_cons_of_mem i hj))
        (fun j hj => hthr j (List.mem_cons_of_mem i hj)) hsort_tail
        (fun j hj => hle j (List.mem_cons_of_mem i hj)) hinv
    · rw [vwsStep_eq, if_neg hmask]
      obtain ⟨inv1, inv2, inv3⟩ := hinv
      have hmaskf : st.mask (i / cols) (i % cols) = false :=
        Bool.eq_false_iff.mpr hmask
      have hvalthr : thr ≤ chm (i / cols) (i % cols) :=
        hthr i (List.mem_cons_self i l2)
      have hdyn_eq : vwsRadius chm base scale power (i / cols, i % cols) =
          base + qpow (chm (i / cols) (i % cols)) power * scale := rfl
      apply ih
      · exact fun j hj => hrange j (List.mem_cons_of_mem i hj)
      · exact fun j hj => hthr j (List.mem_cons_of_mem i hj)
      · exact hsort_tail
      · intro j hj p hp
        rcases List.mem_append.mp hp with hp | hp
        · exact hle j (List.mem_cons_of_mem i hj) p hp
        · rcases List.mem_singleton.mp hp with rfl
          exact hsort_head j hj
      · refine ⟨?_, ?_, ?_⟩
        · intro p hp
          rcases List.mem_append.mp hp with hp | hp
          · exact inv1 p hp
          · rcases List.mem_singleton.mp hp with rfl
            exact ⟨hrlt, hclt, hvalthr⟩
        · rw [List.pairwise_append]
          refine ⟨inv2, List.pairwise_singleton _ _, ?_⟩
          intro p hp q hq
          rcases List.mem_singleton.mp hq with rfl
          constructor
          · exact hle i (List.mem_cons_self i l2) p hp
          · intro hrad
            by_contra hnot
            push_neg at hnot
            have hcover := inv3 p hp (i / cols) (i % cols) hrlt hclt hrad hnot
            rw [hcover] at hmaskf
            simp at hmaskf
        · intro p hp ir ic hirr hicc hrad hdist
          rcases List.mem_append.mp hp with hp | hp
          · have hm := inv3 p hp ir ic hirr hicc hrad hdist
            show (st.mask ir ic || decide (vwsMaskCond rows cols (i / cols)
              (i % cols) (base + qpow (chm (i / cols) (i % cols)) power * scale)
              ir ic)) = true
            rw [hm, Bool.true_or]
          · rcases List.mem_singleton.mp hp with rfl
            have hd : qpow ((ir : ℚ) - (i / cols : Nat)) 2 +
                qpow ((ic : ℚ) - (i % cols : Nat)) 2 ≤
                qpow (base + qpow (chm (i / cols) (i % cols)) power * scale) 2 := by
              rw [qpow_two_sub_comm ((ir : ℚ)) (((i / cols : Nat) : ℚ)),
                qpow_two_sub_comm ((ic : ℚ)) (((i % cols : Nat) : ℚ))]
              rw [← hdyn_eq]
              exact hdist
            have hcond : vwsMaskCond rows cols (i / cols) (i % cols)
                (base + qpow (chm (i / cols) (i % cols)) power * scale) ir ic :=
              vwsMaskCond_of_disk rows cols (i / cols) (i % cols) ir ic _
                hirr hicc (by rw [← hdyn_eq]; exact hrad) hd
            show (st.mask ir ic || decide (vwsMaskCond rows cols (i / cols)
              (i % cols) (base + qpow (chm (i / cols) (i % cols)) power * scale)
              ir ic)) = true
            rw [decide_eq_true hcond, Bool.or_true]

theorem vws_disk_escape (chm : Nat → Nat → ℚ) (base scale : ℚ) (power : Nat)
    (hscale : 0 ≤ scale) (p q : Nat × Nat) (h0q : 0 ≤ chm q.1 q.2)
    (hle : chm q.1 q.2 ≤ chm p.1 p.2)
    (hx : 0 ≤ vwsRadius chm base scale power p →
      qpow (vwsRadius chm base scale power p) 2 < pixDistSq p q) :
    ¬ inExclusionDisk (vwsRadius chm base scale power p) p q ∧
    ¬ inExclusionDisk (vwsRadius chm base scale power q) q p := by
  have hradle : vwsRadius chm base scale power q ≤
      vwsRadius chm base scale power p := by
    unfold vwsRadius
    rw [qpow_eq_pow, qpow_eq_pow]
    have hpow := pow_le_pow_left h0q hle power
    nlinarith
  constructor
  · rintro ⟨h0, hd⟩
    exact absurd hd (not_le.mpr (hx h0))
  · rintro ⟨h0q2, hd⟩
    have h0p : 0 ≤ vwsRadius chm base scale power p := le_trans h0q2 hradle
    have hlt := hx h0p
    rw [pixDistSq_comm q p] at hd
    have hsq : qpow (vwsRadius chm base scale power q) 2 ≤
        qpow (vwsRadius chm base scale power p) 2 := by
      rw [qpow_eq_pow, qpow_eq_pow]
      exact pow_le_pow_left h0q2 hradle 2
    linarith

/-- **C6 (amended).** With a non-negative `height_scale` and a non-negative
candidate threshold (`min_height`), no two peaks returned by the VWS kernel
lie within the exclusion disk of either peak, where the exclusion radius of
`p` is `base_distance + height(p)^power × height_scale` pixels; without
those sign conditions the property fails (see the counterexample). -/
theorem vws_exclusion (rows cols : Nat) (chm : Nat → Nat → ℚ)
    (base scale thr : ℚ) (power : Nat)
    (hscale : 0 ≤ scale) (hthr : 0 ≤ thr) (p q : Nat × Nat)
    (hp : p ∈ detectPeaksVws rows cols chm base scale thr power)
    (hq : q ∈ detectPeaksVws rows cols chm base scale thr power)
    (hne : p ≠ q) :
    ¬ inExclusionDisk (vwsRadius chm base scale power p) p q ∧
    ¬ inExclusionDisk (vwsRadius chm base scale power q) q p := by
  have hinv := vwsFold_inv rows cols chm base scale thr power
    (vwsSorted rows cols chm thr) ⟨[], fun _ _ => false⟩
    (fun i hi => by
      have h1 := (mem_sortDesc _ _ _).mp hi
      have h2 := List.mem_filter.mp h1
      exact List.mem_range.mp h2.1)
    (fun i hi => by
      have h1 := (mem_sortDesc _ _ _).mp hi
      have h2 := List.mem_filter.mp h1
      exact of_decide_eq_true h2.2)
    (pairwise_sortDesc _ _)
    (fun i _ p hp => absurd hp (List.not_mem_nil p))
    ⟨fun p hp => absurd hp (List.not_mem_nil p),
      List.Pairwise.nil,
      fun p hp => absurd hp (List.not_mem_nil p)⟩
  obtain ⟨hin1, hin2, _⟩ := hinv
  have hp2 : p ∈ ((vwsSorted rows cols chm thr).foldl
      (vwsStep rows cols chm base scale power) ⟨[], fun _ _ => false⟩).peaks := hp
  have hq2 : q ∈ ((vwsSorted rows cols chm thr).foldl
      (vwsStep rows cols chm base scale power) ⟨[], fun _ _ => false⟩).peaks := hq
  have hsym : Symmetric (fun a b : Nat × Nat =>
      (chm b.1 b.2 ≤ chm a.1 a.2 ∧
        (0 ≤ vwsRadius chm base scale power a →
          qpow (vwsRadius chm base scale power a) 2 < pixDistSq a b)) ∨
      (chm a.1 a.2 ≤ chm b.1 b.2 ∧
        (0 ≤ vwsRadius chm base scale power b →
          qpow (vwsRadius chm base scale power b) 2 < pixDistSq b a))) := by
    intro a b hab
    exact hab.symm
  have hboth := (hin2.imp (fun hab => Or.inl hab)).forall hsym hp2 hq2 hne
  have h0p : 0 ≤ chm p.1 p.2 := le_trans hthr (hin1 p hp2).2.2
  have h0q : 0 ≤ chm q.1 q.2 := le_trans hthr (hin1 q hq2).2.2
  rcases hboth with ⟨hle, hx⟩ | ⟨hle, hx⟩
  · exact vws_disk_escape chm base scale power hscale p q h0q hle hx
  · exact (vws_disk_escape chm base scale power hscale q p h0p hle hx).symm

theorem vws_exclusion_witness :
    (0 : ℚ) ≤ 1/10 ∧ (0 : ℚ) ≤ 3 ∧
    ¬ inExclusionDisk (vwsRadius exVwsChm2 0 (1/10) 1 (0, 0)) (0, 0) (0, 2) ∧
    ¬ inExclusionDisk (vwsRadius exVwsChm2 0 (1/10) 1 (0, 2)) (0, 2) (0, 0) := by
  have hmem : detectPeaksVws 1 3 exVwsChm2 0 (1/10) 3 1 = [(0, 0), (0, 2)] := by
    norm_num [detectPeaksVws, vwsSorted, vwsCandidates, sortDesc, insertDesc,
      vwsStep, vwsMaskCond, flatVal, exVwsChm2, pytrunc, qpow, List.range_succ,
      List.foldl, List.filter, Int.ceil_neg, Int.floor_ofNat, Int.floor_one]
  have h := vws_exclusion 1 3 exVwsChm2 0 (1/10) 3 1 (by norm_num) (by norm_num)
    (0, 0) (0, 2) (by rw [hmem]; simp) (by rw [hmem]; simp) (by decide)
  exact ⟨by norm_num, by norm_num, h.1, h.2⟩

theorem mem_coreBoxes (width height tile_size : Nat) (wd : PixWindow) :
    wd ∈ coreBoxes width height tile_size ↔
      ∃ i, i < (height + tile_size - 1) / tile_size ∧
        ∃ j, j < (width + tile_size - 1) / tile_size ∧
          wd = ⟨j * tile_size, i * tile_size,
            min tile_size (width - j * tile_size),
            min tile_size (height - i * tile_size)⟩ := by
  unfold coreBoxes
  simp only [List.mem_flatMap, List.mem_map, List.mem_range]
  constructor
  · rintro ⟨i, hi, j, hj, rfl⟩
    exact ⟨i, hi, j, hj, rfl⟩
  · rintro ⟨i, hi, j, hj, rfl⟩
    exact ⟨i, hi, j, hj, rfl⟩

theorem tile_index_lt (n T k : Nat) (ht : 0 < T) (hk : k < n) :
    k / T < (n + T - 1) / T := by
  have h1 : k / T * T ≤ k := Nat.div_mul_le_self k T
  show k / T + 1 ≤ (n + T - 1) / T
  rw [Nat.le_div_iff_mul_le ht, Nat.succ_mul]
  generalize k / T * T = a at h1 ⊢
  omega

theorem tile_pix_mem (n T k : Nat) (ht : 0 < T) (hk : k < n) :
    k / T * T ≤ k ∧ k < k / T * T + min T (n - k / T * T) := by
  have h1 : k / T * T ≤ k := Nat.div_mul_le_self k T
  have hdm : T * (k / T) + k % T = k := Nat.div_add_mod k T
  rw [Nat.mul_comm] at hdm
  have hmod : k % T < T := Nat.mod_lt k ht
  refine ⟨h1, ?_⟩
  rcases Nat.le_total T (n - k / T * T) with hm | hm
  · rw [Nat.min_eq_left hm]
    generalize k / T * T = a at h1 hdm ⊢
    omega
  · rw [Nat.min_eq_right hm]
    generalize k / T * T = a at h1 hdm hm ⊢
    omega

theorem tile_index_unique (n T k j : Nat) (ht : 0 < T)
    (h1 : j * T ≤ k) (h2 : k < j * T + min T (n - j * T)) : j = k / T := by
  have h3 : k < j * T + T :=
    lt_of_lt_of_le h2 (Nat.add_le_add_left (Nat.min_le_left _ _) _)
  have h4 : k / T = j := by
    apply Nat.div_eq_of_lt_le h1
    rw [Nat.succ_mul]
    exact h3
  omega

theorem tile_off_lt (n T j : Nat) (ht : 0 < T) (hj : j < (n + T - 1) / T) :
    j * T < n := by
  have h1 : (j + 1) * T ≤ n + T - 1 := (Nat.le_div_iff_mul_le ht).mp hj
  rw [Nat.succ_mul] at h1
  generalize j * T = a at h1 ⊢
  omega

/-- **C8.** Modelled from the spec (the `partition.py` source is absent):
the core boxes yielded by `iter_core_halo` form an exact cover of the
parent's pixel grid — every core box lies within the parent, and every
pixel of the parent belongs to exactly one core box (so in world
coordinates the union of core boxes is the parent's bounds and two core
boxes meet at most along shared edges, a measure-zero set). -/
theorem iter_core_halo_core_cover (width height tile_size : Nat)
    (ht : 0 < tile_size) :
    (∀ wd ∈ coreBoxes width height tile_size,
      wd.col_off + wd.w ≤ width ∧ wd.row_off + wd.h ≤ height) ∧
    (∀ r c, r < height → c < width →
      ∃! wd, wd ∈ coreBoxes width height tile_size ∧ wd.containsPix r c) := by
  constructor
  · intro wd hwd
    rcases (mem_coreBoxes width height tile_size wd).mp hwd with ⟨i, hi, j, hj, rfl⟩
    have hjw : j * tile_size < width := tile_off_lt width tile_size j ht hj
    have hih : i * tile_size < height := tile_off_lt height tile_size i ht hi
    constructor
    · show j * tile_size + min tile_size (width - j * tile_size) ≤ width
      rcases Nat.le_total tile_size (width - j * tile_size) with hm | hm
      · rw [Nat.min_eq_left hm]
        generalize j * tile_size = a at hjw hm ⊢
        omega
      · rw [Nat.min_eq_right hm]
        generalize j * tile_size = a at hjw ⊢
        omega
    · show i * tile_size + min tile_size (height - i * tile_size) ≤ height
      rcases Nat.le_total tile_size (height - i * tile_size) with hm | hm
      · rw [Nat.min_eq_left hm]
        generalize i * tile_size = a at hih hm ⊢
        omega
      · rw [Nat.min_eq_right hm]
        generalize i * tile_size = a at hih ⊢
        omega
  · intro r c hr hc
    refine ⟨⟨c / tile_size * tile_size, r / tile_size * tile_size,
      min tile_size (width - c / tile_size * tile_size),
      min tile_size (height - r / tile_size * tile_size)⟩, ⟨?_, ?_⟩, ?_⟩
    · rw [mem_coreBoxes]
      exact ⟨r / tile_size, tile_index_lt height tile_size r ht hr,
        c / tile_size, tile_index_lt width tile_size c ht hc, rfl⟩
    · obtain ⟨hr1, hr2⟩ := tile_pix_mem height tile_size r ht hr
      obtain ⟨hc1, hc2⟩ := tile_pix_mem width tile_size c ht hc
      exact ⟨hr1, hr2, hc1, hc2⟩
    · rintro wd ⟨hmem, hcont⟩
      rcases (mem_coreBoxes width height tile_size wd).mp hmem with ⟨i, hi, j, hj, rfl⟩
      obtain ⟨hcr1, hcr2, hcc1, hcc2⟩ := hcont
      have hieq : i = r / tile_size :=
        tile_index_unique height tile_size r i ht hcr1 hcr2
      have hjeq : j = c / tile_size :=
        tile_index_unique width tile_size c j ht hcc1 hcc2
      rw [hieq, hjeq]

theorem iter_core_halo_core_cover_witness :
    (0 : Nat) < 2 ∧
    ((∀ wd ∈ coreBoxes 5 3 2, wd.col_off + wd.w ≤ 5 ∧ wd.row_off + wd.h ≤ 3) ∧
      ∀ r c, r < 3 → c < 5 →
        ∃! wd, wd ∈ coreBoxes 5 3 2 ∧ wd.containsPix r c) :=
  ⟨by decide, iter_core_halo_core_cover 5 3 2 (by decide)⟩

theorem foldl_min_le_init (xs : List ℚ) : ∀ x, xs.foldl min x ≤ x := by
  induction xs with
  | nil => intro x; exact le_refl x
  | cons a as ih => intro x; exact le_trans (ih (min x a)) (min_le_left x a)

theorem foldl_min_le_mem (xs : List ℚ) : ∀ x y, y ∈ xs → xs.foldl min x ≤ y := by
  induction xs with
  | nil => intro x y hy; cases hy
  | cons a as ih =>
    intro x y hy
    rcases List.mem_cons.mp hy with rfl | hy
    · exact le_trans (foldl_min_le_init as (min x y)) (min_le_right x y)
    · exact ih (min x a) y hy

theorem foldl_min_mem (xs : List ℚ) : ∀ x, xs.foldl min x ∈ x :: xs := by
  induction xs with
  | nil => intro x; exact List.mem_singleton.mpr rfl
  | cons a as ih =>
    intro x
    rw [List.foldl_cons]
    rcases List.mem_cons.mp (ih (min x a)) with heq | hmem
    · rcases min_choice x a with hxa | hxa
      · rw [heq, hxa]; exact List.mem_cons_self _ _
      · rw [heq, hxa]
        exact List.mem_cons_of_mem _ (List.mem_cons_self _ _)
    · exact List.mem_cons_of_mem _ (List.mem_cons_of_mem _ hmem)

theorem listMin_mem (l : List ℚ) (h : l ≠ []) : listMin l ∈ l := by
  cases l with
  | nil => exact absurd rfl h
  | cons x xs => exact foldl_min_mem xs x

theorem listMin_le (l : List ℚ) (y : ℚ) (hy : y ∈ l) : listMin l ≤ y := by
  cases l with
  | nil => cases hy
  | cons x xs =>
    rcases List.mem_cons.mp hy with rfl | hy
    · exact foldl_min_le_init xs y
    · exact foldl_min_le_mem xs x y hy

theorem listMin_le_of_subset (l1 l2 : List ℚ) (hsub : ∀ x ∈ l2, x ∈ l1)
    (hne : l2 ≠ []) : listMin l1 ≤ listMin l2 :=
  listMin_le l1 (listMin l2) (hsub (listMin l2) (listMin_mem l2 hne))

theorem listMean_filter_ge (l : List ℚ) (p : ℚ → Bool) (t : ℚ)
    (hkeep : ∀ x ∈ l, p x = true → t < x)
    (hdrop : ∀ x ∈ l, p x = false → x ≤ t)
    (hne : l.filter p ≠ []) :
    listMean l ≤ listMean (l.filter p) := by
  classical
  set B := l.filter p with hB
  set C := l.filter (fun x => !p x) with hC
  have hperm : List.Perm (B ++ C) l := List.filter_append_perm p l
  have hsum : l.sum = B.sum + C.sum := by
    rw [← hperm.sum_eq, List.sum_append]
  have hlen : l.length = B.length + C.length := by
    rw [← hperm.length_eq, List.length_append]
  have hBpos : 0 < B.length := List.length_pos.mpr hne
  have hsumB : (B.length : ℚ) * t ≤ B.sum := by
    have h1 : ∀ x ∈ B, t ≤ x := by
      intro x hx
      have hx2 := List.mem_filter.mp (hB ▸ hx)
      exact le_of_lt (hkeep x hx2.1 hx2.2)
    have := List.card_nsmul_le_sum B t h1
    rwa [nsmul_eq_mul] at this
  have hsumC : C.sum ≤ (C.length : ℚ) * t := by
    have h1 : ∀ x ∈ C, x ≤ t := by
      intro x hx
      have hx2 := List.mem_filter.mp (hC ▸ hx)
      apply hdrop x hx2.1
      have := hx2.2
      simp at this
      exact this
    have := List.sum_le_card_nsmul C t h1
    rwa [nsmul_eq_mul] at this
  unfold listMean
  rw [hsum, hlen]
  have hBq : (0 : ℚ) < (B.length : ℚ) := by exact_mod_cast hBpos
  have hCq : (0 : ℚ) ≤ (C.length : ℚ) := by positivity
  rw [div_le_div_iff (by push_cast; linarith) hBq]
  push_cast
  nlinarith [hsumB, hsumC]

theorem filter_imp_absorb {α : Type} (l : List α) (p q : α → Bool)
    (h : ∀ a ∈ l, q a = true → p a = true) :
    (l.filter p).filter q = l.filter q := by
  rw [List.filter_filter]
  apply List.filter_congr
  intro a ha
  cases hq : q a
  · simp
  · simp [h a ha hq]

theorem validCol_imp (R : XRaster) (t1 t2 : ℚ) (h12 : t1 ≤ t2)
    (p : Nat × Nat) (h : validCol R t2 p) : validCol R t1 p := by
  obtain ⟨h1, h2⟩ := h
  exact ⟨h1, fun b hb => lt_of_le_of_lt h12 (h2 b hb)⟩

theorem keptPixels_inv (R : XRaster) (g : GeoBox) (T : IntRect) (thr : ℚ)
    (ps : List (Nat × Nat)) (h : keptPixels R g T thr = some ps) :
    ∃ W, rectIntersect T (geomWindow R g) = some W ∧ ¬ R.bands = 0 ∧
      ¬ maskPixels R g W = [] ∧
      ps = (maskPixels R g W).filter (fun p => decide (validCol R thr p)) ∧
      ¬ ps = [] := by
  unfold keptPixels at h
  rcases hW : rectIntersect T (geomWindow R g) with _ | W
  · rw [hW] at h; cases h
  · rw [hW] at h
    dsimp only at h
    by_cases hb : R.bands = 0
    · rw [if_pos hb] at h; cases h
    · rw [if_neg hb] at h
      by_cases hm : maskPixels R g W = []
      · rw [if_pos hm] at h; cases h
      · rw [if_neg hm] at h
        by_cases hk : (maskPixels R g W).filter
            (fun p => decide (validCol R thr p)) = []
        · rw [if_pos hk] at h; cases h
        · rw [if_neg hk] at h
          injection h with h2
          exact ⟨W, rfl, hb, hm, h2.symm, by rw [← h2]; exact hk⟩

theorem map_filter_comp {α : Type} (f : α → ℚ) (q : ℚ → Bool) (l : List α) :
    (l.filter (fun a => q (f a))).map f = (l.map f).filter q := by
  induction l with
  | nil => rfl
  | cons a as ih =>
    cases hq : q (f a) <;>
      simp [List.filter_cons, hq, ih]

theorem decide_validCol_imp (R : XRaster) (t1 t2 : ℚ) (h12 : t1 ≤ t2) :
    ∀ p : Nat × Nat, decide (validCol R t2 p) = true →
      decide (validCol R t1 p) = true := by
  intro p h
  exact decide_eq_true (validCol_imp R t1 t2 h12 p (of_decide_eq_true h))

theorem mask_filter_absorb (R : XRaster) (g : GeoBox) (W : IntRect)
    (t1 t2 : ℚ) (h12 : t1 ≤ t2) :
    (maskPixels R g W).filter (fun p => decide (validCol R t2 p)) =
      ((maskPixels R g W).filter (fun p => decide (validCol R t1 p))).filter
        (fun p => decide (validCol R t2 p)) :=
  (filter_imp_absorb (maskPixels R g W) _ _
    (fun a _ h => decide_validCol_imp R t1 t2 h12 a h)).symm

theorem keptPixels_getD_filter (R : XRaster) (g : GeoBox) (T : IntRect)
    (t1 t2 : ℚ) (h12 : t1 ≤ t2) :
    (keptPixels R g T t2).getD [] =
      ((keptPixels R g T t1).getD []).filter
        (fun p => decide (validCol R t2 p)) := by
  unfold keptPixels
  rcases hW : rectIntersect T (geomWindow R g) with _ | W
  · rfl
  · dsimp only
    by_cases hb : R.bands = 0
    · rw [if_pos hb, if_pos hb]; rfl
    · rw [if_neg hb, if_neg hb]
      by_cases hm : maskPixels R g W = []
      · rw [if_pos hm, if_pos hm]; rfl
      · rw [if_neg hm, if_neg hm]
        have hE := mask_filter_absorb R g W t1 t2 h12
        by_cases hv1 : (maskPixels R g W).filter
            (fun p => decide (validCol R t1 p)) = []
        · rw [if_pos hv1]
          have hv2 : (maskPixels R g W).filter
              (fun p => decide (validCol R t2 p)) = [] := by
            rw [hE, hv1]
            rfl
          rw [if_pos hv2]
          rfl
        · rw [if_neg hv1]
          by_cases hv2 : (maskPixels R g W).filter
              (fun p => decide (validCol R t2 p)) = []
          · rw [if_pos hv2]
            show ([] : List (Nat × Nat)) = _
            rw [Option.getD_some]
            rw [← hE, hv2]
          · rw [if_neg hv2]
            rw [Option.getD_some, Option.getD_some]
            exact hE

theorem join_map_filter {α : Type} (l : List (List α)) (q : α → Bool) :
    (l.map (fun x => x.filter q)).flatten = l.flatten.filter q := by
  induction l with
  | nil => rfl
  | cons a as ih =>
    rw [List.map_cons, List.flatten_cons, List.flatten_cons,
      List.filter_append, ih]

theorem kept_mem_valid (R : XRaster) (g : GeoBox) (T : IntRect) (thr : ℚ)
    (p : Nat × Nat) (hp : p ∈ (keptPixels R g T thr).getD []) :
    validCol R thr p := by
  rcases hk : keptPixels R g T thr with _ | ps
  · rw [hk] at hp; cases hp
  · rw [hk, Option.getD_some] at hp
    obtain ⟨W, _, _, _, hps, _⟩ := keptPixels_inv R g T thr ps hk
    rw [hps] at hp
    exact of_decide_eq_true (List.mem_filter.mp hp).2

theorem validCol_single_iff (R : XRaster) (hb : R.bands = 1) (t t2 : ℚ)
    (p : Nat × Nat) (hok : validCol R t p) :
    (validCol R t2 p ↔ t2 < R.data 0 p.1 p.2) := by
  constructor
  · intro h
    exact h.2 0 (by omega)
  · intro h
    refine ⟨?_, ?_⟩
    · intro b hbb
      have hb0 : b = 0 := by omega
      rw [hb0]
      exact hok.1 0 (by omega)
    · intro b hbb
      have hb0 : b = 0 := by omega
      rw [hb0]
      exact h

/-- **C3 (amended).** Raising the extractor's `threshold` cannot *decrease*
any per-band minimum of the emitted record (pixels are kept iff every band
is strictly above the threshold, so survivors at the higher threshold are a
subset), and for single-band data it cannot decrease the mean either; the
boundary-buffer finalization (statistics over the concatenation of the
kept pixels of every tile visit) obeys the same rule.  The direction
claimed by the spec (cannot *increase*) is refuted by the
counterexample. -/
theorem threshold_monotone (R : XRaster) (g : GeoBox) (T : IntRect)
    (t1 t2 : ℚ) (h12 : t1 ≤ t2) :
    (∀ ps1 ps2, keptPixels R g T t1 = some ps1 →
      keptPixels R g T t2 = some ps2 →
      processGeometryStats R g T t1 = some (statsRecord R ps1) ∧
      processGeometryStats R g T t2 = some (statsRecord R ps2) ∧
      (∀ b, b < R.bands → (statsOfList (bandValues R ps1 b)).mn ≤
        (statsOfList (bandValues R ps2 b)).mn) ∧
      (R.bands = 1 → (statsOfList (bandValues R ps1 0)).mean ≤
        (statsOfList (bandValues R ps2 0)).mean)) ∧
    (∀ tiles : List IntRect, ∀ b, b < R.bands →
      bufferedValues R g t2 tiles b ≠ [] →
      (statsOfList (bufferedValues R g t1 tiles b)).mn ≤
        (statsOfList (bufferedValues R g t2 tiles b)).mn ∧
      (R.bands = 1 → (statsOfList (bufferedValues R g t1 tiles b)).mean ≤
        (statsOfList (bufferedValues R g t2 tiles b)).mean)) := by
  have hmean_core : ∀ (ps1 : List (Nat × Nat)),
      (∀ p ∈ ps1, validCol R t1 p) → R.bands = 1 →
      (ps1.filter (fun p => decide (validCol R t2 p))) ≠ [] →
      listMean (bandValues R ps1 0) ≤
        listMean (bandValues R
          (ps1.filter (fun p => decide (validCol R t2 p))) 0) := by
    intro ps1 hvalid hb1 hne
    have hcongr : ps1.filter (fun p => decide (validCol R t2 p)) =
        ps1.filter (fun p => decide (t2 < R.data 0 p.1 p.2)) := by
      apply List.filter_congr
      intro p hp
      have hiff := validCol_single_iff R hb1 t1 t2 p (hvalid p hp)
      have := hiff
      by_cases hdec : validCol R t2 p
      · rw [decide_eq_true hdec, decide_eq_true (hiff.mp hdec)]
      · rw [decide_eq_false hdec, decide_eq_false (fun hc => hdec (hiff.mpr hc))]
    have hmapf : bandValues R
        (ps1.filter (fun p => decide (t2 < R.data 0 p.1 p.2))) 0 =
        (bandValues R ps1 0).filter (fun x => decide (t2 < x)) := by
      unfold bandValues
      exact map_filter_comp (fun p => R.data 0 p.1 p.2)
        (fun x => decide (t2 < x)) ps1
    rw [hcongr, hmapf]
    apply listMean_filter_ge (bandValues R ps1 0)
      (fun x => decide (t2 < x)) t2
    · intro x _ hx
      exact of_decide_eq_true hx
    · intro x _ hx
      have := of_decide_eq_false hx
      exact le_of_not_lt this
    · rw [← hmapf, ← hcongr]
      intro hemp
      apply hne
      unfold bandValues at hemp
      exact List.map_eq_nil.mp hemp
  have hmn_core : ∀ (ps1 ps2 : List (Nat × Nat)),
      (∀ p ∈ ps2, p ∈ ps1) → ps2 ≠ [] → ∀ b,
      listMin (bandValues R ps1 b) ≤ listMin (bandValues R ps2 b) := by
    intro ps1 ps2 hsub hne b
    apply listMin_le_of_subset
    · intro x hx
      rcases List.mem_map.mp hx with ⟨p, hp, hpx⟩
      exact List.mem_map.mpr ⟨p, hsub p hp, hpx⟩
    · intro hemp
      exact hne (List.map_eq_nil.mp hemp)
  constructor
  · intro ps1 ps2 h1 h2
    obtain ⟨W1, hW1, hb0, hm1, hps1, hne1⟩ := keptPixels_inv R g T t1 ps1 h1
    obtain ⟨W2, hW2, _, _, hps2, hne2⟩ := keptPixels_inv R g T t2 ps2 h2
    have hWW : W2 = W1 := by
      rw [hW1] at hW2
      exact (Option.some.inj hW2).symm
    rw [hWW] at hps2
    have hps2f : ps2 = ps1.filter (fun p => decide (validCol R t2 p)) := by
      rw [hps2, mask_filter_absorb R g W1 t1 t2 h12, ← hps1]
    have hsub : ∀ p ∈ ps2, p ∈ ps1 := by
      intro p hp
      rw [hps2f] at hp
      exact (List.mem_filter.mp hp).1
    have hvalid1 : ∀ p ∈ ps1, validCol R t1 p := by
      intro p hp
      rw [hps1] at hp
      exact of_decide_eq_true (List.mem_filter.mp hp).2
    refine ⟨by rw [processGeometryStats, h1]; rfl,
      by rw [processGeometryStats, h2]; rfl, ?_, ?_⟩
    · intro b _
      exact hmn_core ps1 ps2 hsub hne2 b
    · intro hb1
      have := hmean_core ps1 hvalid1 hb1 (by rw [← hps2f]; exact hne2)
      rw [← hps2f] at this
      exact this
  · intro tiles b _ hne2
    have hpixf : (tiles.map (fun T => (keptPixels R g T t2).getD [])).flatten =
        ((tiles.map (fun T => (keptPixels R g T t1).getD [])).flatten).filter
          (fun p => decide (validCol R t2 p)) := by
      rw [← join_map_filter]
      congr 1
      rw [List.map_map]
      apply List.map_congr_left
      intro T _
      exact keptPixels_getD_filter R g T t1 t2 h12
    have hvalid1 : ∀ p ∈ (tiles.map
        (fun T => (keptPixels R g T t1).getD [])).flatten, validCol R t1 p := by
      intro p hp
      rcases List.mem_flatten.mp hp with ⟨lp, hlp, hplp⟩
      rcases List.mem_map.mp hlp with ⟨T, _, hT⟩
      rw [← hT] at hplp
      exact kept_mem_valid R g T t1 p hplp
    have hval2 : bufferedValues R g t2 tiles b =
        ((tiles.map (fun T => (keptPixels R g T t1).getD [])).flatten.filter
          (fun p => decide (validCol R t2 p))).map
            (fun p => R.data b p.1 p.2) := by
      unfold bufferedValues
      rw [hpixf]
    have hpne : (tiles.map
        (fun T => (keptPixels R g T t1).getD [])).flatten.filter
          (fun p => decide (validCol R t2 p)) ≠ [] := by
      intro hemp
      apply hne2
      rw [hval2, hemp]
      rfl
    constructor
    · show listMin (bufferedValues R g t1 tiles b) ≤
        listMin (bufferedValues R g t2 tiles b)
      unfold bufferedValues
      rw [hpixf]
      apply hmn_core
      · intro p hp
        exact (List.mem_filter.mp hp).1
      · exact hpne
    · intro hb1
      show listMean (bufferedValues R g t1 tiles b) ≤
        listMean (bufferedValues R g t2 tiles b)
      have hb0 : b = 0 := by omega
      rw [hb0]
      unfold bufferedValues
      rw [hpixf]
      exact hmean_core _ hvalid1 hb1 hpne

/-- **C3 counterexample.** On a single-band raster with pixel values 1 and
100 under one polygon, raising the threshold from 0 to 50 drops the low
pixel: the per-band mean rises from 101/2 to 100 and the per-band min from
1 to 100, so raising `threshold` *can* increase the emitted record's
per-band mean and min (it removes the low pixels). -/
theorem threshold_monotone_counterexample :
    processGeometryStats exRaster3 exGeom3 (fullRect exRaster3) 0 =
      some [⟨101/2, 101/2, 9801/4, 1, 100⟩] ∧
    processGeometryStats exRaster3 exGeom3 (fullRect exRaster3) 50 =
      some [⟨100, 100, 0, 100, 100⟩] ∧
    ((101 : ℚ)/2 < 100) ∧ ((1 : ℚ) < 100) := by
  refine ⟨?_, ?_, by norm_num, by norm_num⟩ <;>
    norm_num +decide [processGeometryStats, keptPixels, rectIntersect,
      geomWindow, fullRect, exRaster3, exGeom3, maskPixels, touchedPixels,
      strictPixels, rectPixels, pixelTouches, centerInside, validCol,
      statsRecord, statsOfList, bandValues, listMedian, listMean, listVar,
      listMin, listMax, sortAsc, insertAsc, List.range_succ, List.filter,
      Int.floor_ofNat, Int.floor_one, Int.floor_zero, Nat.lt_one_iff]

theorem threshold_monotone_witness :
    ((0 : ℚ) ≤ 50) ∧
    (statsOfList (bandValues exRaster3 [(0, 0), (0, 1)] 0)).mn ≤
      (statsOfList (bandValues exRaster3 [(0, 1)] 0)).mn ∧
    (statsOfList (bandValues exRaster3 [(0, 0), (0, 1)] 0)).mean ≤
      (statsOfList (bandValues exRaster3 [(0, 1)] 0)).mean := by
  have hk1 : keptPixels exRaster3 exGeom3 (fullRect exRaster3) 0 =
      some [(0, 0), (0, 1)] := by
    norm_num +decide [keptPixels, rectIntersect, geomWindow, fullRect,
      exRaster3, exGeom3, maskPixels, touchedPixels, strictPixels, rectPixels,
      pixelTouches, centerInside, validCol, List.range_succ, List.filter,
      Int.floor_ofNat, Int.floor_one, Int.floor_zero, Nat.lt_one_iff]
  have hk2 : keptPixels exRaster3 exGeom3 (fullRect exRaster3) 50 =
      some [(0, 1)] := by
    norm_num +decide [keptPixels, rectIntersect, geomWindow, fullRect,
      exRaster3, exGeom3, maskPixels, touchedPixels, strictPixels, rectPixels,
      pixelTouches, centerInside, validCol, List.range_succ, List.filter,
      Int.floor_ofNat, Int.floor_one, Int.floor_zero, Nat.lt_one_iff]
  have h := (threshold_monotone exRaster3 exGeom3 (fullRect exRaster3) 0 50
    (by norm_num)).1 [(0, 0), (0, 1)] [(0, 1)] hk1 hk2
  exact ⟨by norm_num, h.2.2.1 0 (by norm_num [exRaster3]), h.2.2.2 rfl⟩

theorem nodup_flatMap_inj {α β : Type} (l : List α) (f : α → List β)
    (hn : ∀ a ∈ l, (f a).Nodup) (hl : l.Nodup)
    (hd : ∀ a ∈ l, ∀ a' ∈ l, a ≠ a' → ∀ b ∈ f a, b ∉ f a') :
    (l.flatMap f).Nodup := by
  induction l with
  | nil => exact List.nodup_nil
  | cons a as ih =>
    rw [List.flatMap_cons]
    refine List.Nodup.append (hn a (by simp)) ?_ ?_
    · exact ih (fun x hx => hn x (by simp [hx])) (List.Nodup.of_cons hl)
        (fun x hx y hy hxy => hd x (by simp [hx]) y (by simp [hy]) hxy)
    · intro b hb hb'
      rw [List.mem_flatMap] at hb'
      obtain ⟨a', ha', hba'⟩ := hb'
      have hne : a ≠ a' := by
        rintro rfl
        exact (List.nodup_cons.mp hl).1 ha'
      exact hd a (by simp) a' (by simp [ha']) hne b hb hba'

theorem mem_rectPixels (W : IntRect) (hc : 0 ≤ W.col_off)
    (hr : 0 ≤ W.row_off) (p : Nat × Nat) :
    p ∈ rectPixels W ↔
      W.row_off ≤ (p.1 : Int) ∧ (p.1 : Int) < W.row_off + W.h ∧
      W.col_off ≤ (p.2 : Int) ∧ (p.2 : Int) < W.col_off + W.w := by
  obtain ⟨a, b⟩ := p
  unfold rectPixels
  rw [List.mem_flatMap]
  constructor
  · rintro ⟨i, hi, hp⟩
    rw [List.mem_range] at hi
    rw [List.mem_map] at hp
    obtain ⟨j, hj, hpe⟩ := hp
    rw [List.mem_range] at hj
    injection hpe with h1 h2
    refine ⟨?_, ?_, ?_, ?_⟩ <;> omega
  · rintro ⟨h1, h2, h3, h4⟩
    refine ⟨a - W.row_off.toNat, ?_, ?_⟩
    · rw [List.mem_range]
      omega
    · rw [List.mem_map]
      refine ⟨b - W.col_off.toNat, ?_, ?_⟩
      · rw [List.mem_range]
        omega
      · simp only [Prod.mk.injEq]
        constructor <;> omega

theorem rectPixels_nodup (W : IntRect) (hc : 0 ≤ W.col_off)
    (hr : 0 ≤ W.row_off) : (rectPixels W).Nodup := by
  unfold rectPixels
  apply nodup_flatMap_inj
  · intro i hi
    rw [List.mem_range] at hi
    apply List.Nodup.map_on ?_ (List.nodup_range _)
    intro x hx y hy hxy
    rw [List.mem_range] at hx hy
    injection hxy with h1 h2
    omega
  · exact List.nodup_range _
  · intro i hi i' hi' hne b hb hb'
    rw [List.mem_range] at hi hi'
    rw [List.mem_map] at hb hb'
    obtain ⟨j, hj, rfl⟩ := hb
    obtain ⟨j', hj', he⟩ := hb'
    rw [List.mem_range] at hj hj'
    injection he with h1 h2
    apply hne
    omega

theorem rectIntersect_eq_some (A B W : IntRect) :
    rectIntersect A B = some W ↔
      (max A.col_off B.col_off < min (A.col_off + A.w) (B.col_off + B.w) ∧
       max A.row_off B.row_off < min (A.row_off + A.h) (B.row_off + B.h)) ∧
      W = ⟨max A.col_off B.col_off, max A.row_off B.row_off,
           min (A.col_off + A.w) (B.col_off + B.w) - max A.col_off B.col_off,
           min (A.row_off + A.h) (B.row_off + B.h) -
             max A.row_off B.row_off⟩ := by
  simp only [rectIntersect]
  split_ifs with h
  · constructor
    · intro he
      injection he with he
      exact ⟨h, he.symm⟩
    · rintro ⟨-, rfl⟩
      rfl
  · constructor
    · intro he
      cases he
    · rintro ⟨hc, -⟩
      exact absurd hc h

theorem rectIntersect_eq_none (A B : IntRect) :
    rectIntersect A B = none ↔
      ¬ (max A.col_off B.col_off < min (A.col_off + A.w) (B.col_off + B.w) ∧
         max A.row_off B.row_off < min (A.row_off + A.h) (B.row_off + B.h)) := by
  simp only [rectIntersect]
  split_ifs with h
  · exact iff_of_false (by simp) (not_not_intro h)
  · exact iff_of_true rfl h

theorem rectIntersect_fields (A B W : IntRect)
    (h : rectIntersect A B = some W) :
    W.col_off = max A.col_off B.col_off ∧
    W.row_off = max A.row_off B.row_off ∧
    W.col_off + W.w = min (A.col_off + A.w) (B.col_off + B.w) ∧
    W.row_off + W.h = min (A.row_off + A.h) (B.row_off + B.h) ∧
    W.col_off < W.col_off + W.w ∧ W.row_off < W.row_off + W.h := by
  obtain ⟨hcond, rfl⟩ := (rectIntersect_eq_some A B W).mp h
  refine ⟨rfl, rfl, ?_, ?_, ?_, ?_⟩ <;> dsimp only <;> omega

theorem tilePix_mem (R : XRaster) (g : GeoBox) (T : PixWindow)
    (hgc : 0 ≤ (geomWindow R g).col_off)
    (hgr : 0 ≤ (geomWindow R g).row_off) (p : Nat × Nat) :
    p ∈ tilePix R g T ↔
      T.containsPix p.1 p.2 ∧ p ∈ rectPixels (geomWindow R g) := by
  unfold tilePix
  rcases h : rectIntersect T.toRect (geomWindow R g) with _ | W
  · rw [rectIntersect_eq_none] at h
    dsimp only [PixWindow.toRect] at h
    simp only [List.not_mem_nil, false_iff]
    rintro ⟨hcont, hmem⟩
    rw [mem_rectPixels _ hgc hgr] at hmem
    unfold PixWindow.containsPix at hcont
    omega
  · obtain ⟨h1, h2, h3, h4, h5, h6⟩ := rectIntersect_fields _ _ _ h
    dsimp only [PixWindow.toRect] at h1 h2 h3 h4
    rw [mem_rectPixels _ (by omega) (by omega), mem_rectPixels _ hgc hgr]
    unfold PixWindow.containsPix
    omega

theorem floor_add_floor_le (a b : ℚ) : ⌊a⌋ + ⌊b⌋ ≤ ⌊a + b⌋ := by
  rw [Int.le_floor]
  push_cast
  exact add_le_add (Int.floor_le a) (Int.floor_le b)

theorem geomWindow_w_le (R : XRaster) (g : GeoBox) :
    (geomWindow R g).col_off + (geomWindow R g).w ≤
      ⌊(g.maxx - R.x0) / R.px⌋ := by
  unfold geomWindow
  dsimp only
  refine le_trans (floor_add_floor_le _ _) ?_
  rw [div_add_div_same]
  have he : g.minx - R.x0 + (g.maxx - g.minx) = g.maxx - R.x0 := by ring
  rw [he]

theorem geomWindow_h_le (R : XRaster) (g : GeoBox) :
    (geomWindow R g).row_off + (geomWindow R g).h ≤
      ⌊(R.y0 - g.miny) / R.py⌋ := by
  unfold geomWindow
  dsimp only
  refine le_trans (floor_add_floor_le _ _) ?_
  rw [div_add_div_same]
  have he : R.y0 - g.maxy + (g.maxy - g.miny) = R.y0 - g.miny := by ring
  rw [he]

theorem geomWindow_in_grid (R : XRaster) (g : GeoBox)
    (hpx : 0 < R.px) (hpy : 0 < R.py)
    (hg : boxWithin g (rasterWorldBox R)) :
    0 ≤ (geomWindow R g).col_off ∧ 0 ≤ (geomWindow R g).row_off ∧
    (geomWindow R g).col_off + (geomWindow R g).w ≤ R.cols ∧
    (geomWindow R g).row_off + (geomWindow R g).h ≤ R.rows := by
  unfold boxWithin rasterWorldBox at hg
  obtain ⟨h1, h2, h3, h4⟩ := hg
  dsimp only at h1 h2 h3 h4
  refine ⟨?_, ?_, ?_, ?_⟩
  · unfold geomWindow
    dsimp only
    rw [Int.le_floor]
    push_cast
    exact div_nonneg (by linarith) hpx.le
  · unfold geomWindow
    dsimp only
    rw [Int.le_floor]
    push_cast
    exact div_nonneg (by linarith) hpy.le
  · refine le_trans (geomWindow_w_le R g) ?_
    calc ⌊(g.maxx - R.x0) / R.px⌋ ≤ ⌊((R.cols : ℚ))⌋ := by
          apply Int.floor_le_floor
          rw [div_le_iff₀ hpx]
          linarith
      _ = R.cols := Int.floor_natCast _
  · refine le_trans (geomWindow_h_le R g) ?_
    calc ⌊(R.y0 - g.miny) / R.py⌋ ≤ ⌊((R.rows : ℚ))⌋ := by
          apply Int.floor_le_floor
          rw [div_le_iff₀ hpy]
          linarith
      _ = R.rows := Int.floor_natCast _

theorem geomWindow_sub_tile (R : XRaster) (g : GeoBox) (T : PixWindow)
    (hpx : 0 < R.px) (hpy : 0 < R.py)
    (hg : boxWithin g (tileWorldBox R T)) :
    (T.col_off : Int) ≤ (geomWindow R g).col_off ∧
    (geomWindow R g).col_off + (geomWindow R g).w ≤ T.col_off + T.w ∧
    (T.row_off : Int) ≤ (geomWindow R g).row_off ∧
    (geomWindow R g).row_off + (geomWindow R g).h ≤ T.row_off + T.h := by
  unfold boxWithin tileWorldBox at hg
  obtain ⟨h1, h2, h3, h4⟩ := hg
  dsimp only at h1 h2 h3 h4
  refine ⟨?_, ?_, ?_, ?_⟩
  · unfold geomWindow
    dsimp only
    rw [Int.le_floor]
    push_cast
    rw [le_div_iff₀ hpx]
    linarith
  · refine le_trans (geomWindow_w_le R g) ?_
    have h5 : ⌊((((T.col_off : Int) + (T.w : Int) : Int)) : ℚ)⌋ =
        (T.col_off : Int) + (T.w : Int) := Int.floor_intCast _
    refine le_trans (Int.floor_le_floor ?_) (le_of_eq h5)
    rw [div_le_iff₀ hpx]
    push_cast
    linarith
  · unfold geomWindow
    dsimp only
    rw [Int.le_floor]
    push_cast
    rw [le_div_iff₀ hpy]
    linarith
  · refine le_trans (geomWindow_h_le R g) ?_
    have h5 : ⌊((((T.row_off : Int) + (T.h : Int) : Int)) : ℚ)⌋ =
        (T.row_off : Int) + (T.h : Int) := Int.floor_intCast _
    refine le_trans (Int.floor_le_floor ?_) (le_of_eq h5)
    rw [div_le_iff₀ hpy]
    push_cast
    linarith

theorem boxIntersects_of_rectIntersect (R : XRaster) (g : GeoBox)
    (T : PixWindow) (hpx : 0 < R.px) (hpy : 0 < R.py) (W : IntRect)
    (h : rectIntersect T.toRect (geomWindow R g) = some W) :
    boxIntersects g (tileWorldBox R T) := by
  obtain ⟨h1, h2, h3, h4, h5, h6⟩ := rectIntersect_fields _ _ _ h
  dsimp only [PixWindow.toRect] at h1 h2 h3 h4
  have hx1 : (T.col_off : Int) < (geomWindow R g).col_off +
      (geomWindow R g).w := by omega
  have hx2 : (geomWindow R g).col_off < (T.col_off : Int) + T.w := by omega
  have hy1 : (T.row_off : Int) < (geomWindow R g).row_off +
      (geomWindow R g).h := by omega
  have hy2 : (geomWindow R g).row_off < (T.row_off : Int) + T.h := by omega
  have hsx := geomWindow_w_le R g
  have hsy := geomWindow_h_le R g
  have hgx1 : (T.col_off : Int) < ⌊(g.maxx - R.x0) / R.px⌋ := by omega
  have hgy1 : (T.row_off : Int) < ⌊(R.y0 - g.miny) / R.py⌋ := by omega
  rw [show (geomWindow R g).col_off = ⌊(g.minx - R.x0) / R.px⌋ from rfl]
    at hx2
  rw [show (geomWindow R g).row_off = ⌊(R.y0 - g.maxy) / R.py⌋ from rfl]
    at hy2
  unfold boxIntersects tileWorldBox
  dsimp only
  refine ⟨?_, ?_, ?_, ?_⟩
  · have h' : (g.minx - R.x0) / R.px <
        ((((T.col_off : Int) + (T.w : Int) : Int)) : ℚ) :=
      Int.floor_lt.mp hx2
    rw [div_lt_iff₀ hpx] at h'
    push_cast at h'
    linarith
  · have h' : ((((T.col_off : Int) + 1 : Int)) : ℚ) ≤
        (g.maxx - R.x0) / R.px := Int.le_floor.mp (by omega)
    rw [le_div_iff₀ hpx] at h'
    push_cast at h'
    nlinarith [hpx]
  · have h' : ((((T.row_off : Int) + 1 : Int)) : ℚ) ≤
        (R.y0 - g.miny) / R.py := Int.le_floor.mp (by omega)
    rw [le_div_iff₀ hpy] at h'
    push_cast at h'
    nlinarith [hpy]
  · have h' : (R.y0 - g.maxy) / R.py <
        ((((T.row_off : Int) + (T.h : Int) : Int)) : ℚ) :=
      Int.floor_lt.mp hy2
    rw [div_lt_iff₀ hpy] at h'
    push_cast at h'
    linarith

theorem foldl_max_init_le (xs : List ℚ) : ∀ x, x ≤ xs.foldl max x := by
  induction xs with
  | nil => intro x; exact le_refl x
  | cons a as ih => intro x; exact le_trans (le_max_left x a) (ih (max x a))

theorem foldl_max_mem_le (xs : List ℚ) : ∀ x y, y ∈ xs → y ≤ xs.foldl max x := by
  induction xs with
  | nil => intro x y hy; cases hy
  | cons a as ih =>
    intro x y hy
    rcases List.mem_cons.mp hy with rfl | hy
    · exact le_trans (le_max_right x y) (foldl_max_init_le as (max x y))
    · exact ih (max x a) y hy

theorem foldl_max_mem (xs : List ℚ) : ∀ x, xs.foldl max x ∈ x :: xs := by
  induction xs with
  | nil => intro x; exact List.mem_singleton.mpr rfl
  | cons a as ih =>
    intro x
    rw [List.foldl_cons]
    rcases List.mem_cons.mp (ih (max x a)) with heq | hmem
    · rcases max_choice x a with hxa | hxa
      · rw [heq, hxa]; exact List.mem_cons_self _ _
      · rw [heq, hxa]
        exact List.mem_cons_of_mem _ (List.mem_cons_self _ _)
    · exact List.mem_cons_of_mem _ (List.mem_cons_of_mem _ hmem)

theorem listMax_mem (l : List ℚ) (h : l ≠ []) : listMax l ∈ l := by
  cases l with
  | nil => exact absurd rfl h
  | cons x xs => exact foldl_max_mem xs x

theorem le_listMax (l : List ℚ) (y : ℚ) (hy : y ∈ l) : y ≤ listMax l := by
  cases l with
  | nil => cases hy
  | cons x xs =>
    rcases List.mem_cons.mp hy with rfl | hy
    · exact foldl_max_init_le xs y
    · exact foldl_max_mem_le xs x y hy

theorem perm_insertAsc (x : ℚ) (l : List ℚ) :
    List.Perm (insertAsc x l) (x :: l) := by
  induction l with
  | nil => exact List.Perm.refl _
  | cons y ys ih =>
    unfold insertAsc
    by_cases h : x ≤ y
    · rw [if_pos h]
    · rw [if_neg h]
      exact (List.Perm.cons y ih).trans (List.Perm.swap x y ys)

theorem sortAsc_perm (l : List ℚ) : List.Perm (sortAsc l) l := by
  induction l with
  | nil => exact List.Perm.refl _
  | cons x xs ih =>
    exact (perm_insertAsc x (sortAsc xs)).trans (List.Perm.cons x ih)

theorem sorted_insertAsc (x : ℚ) (l : List ℚ) (h : l.Sorted (· ≤ ·)) :
    (insertAsc x l).Sorted (· ≤ ·) := by
  induction l with
  | nil => simp [insertAsc]
  | cons y ys ih =>
    unfold insertAsc
    rw [List.sorted_cons] at h
    by_cases hxy : x ≤ y
    · rw [if_pos hxy]
      refine List.sorted_cons.mpr ⟨?_, List.sorted_cons.mpr h⟩
      intro z hz
      rcases List.mem_cons.mp hz with rfl | hz
      · exact hxy
      · exact le_trans hxy (h.1 z hz)
    · rw [if_neg hxy]
      refine List.sorted_cons.mpr ⟨?_, ih h.2⟩
      intro z hz
      have hz' := (perm_insertAsc x ys).mem_iff.mp hz
      rcases List.mem_cons.mp hz' with rfl | hz'
      · exact le_of_lt (lt_of_not_le hxy)
      · exact h.1 z hz'

theorem sortAsc_sorted (l : List ℚ) : (sortAsc l).Sorted (· ≤ ·) := by
  induction l with
  | nil => exact List.sorted_nil
  | cons x xs ih => exact sorted_insertAsc x (sortAsc xs) ih

theorem sortAsc_eq_of_perm (l l' : List ℚ) (h : List.Perm l l') :
    sortAsc l = sortAsc l' :=
  List.eq_of_perm_of_sorted
    ((sortAsc_perm l).trans (h.trans (sortAsc_perm l').symm))
    (sortAsc_sorted l) (sortAsc_sorted l')

theorem listMean_perm (l l' : List ℚ) (h : List.Perm l l') :
    listMean l = listMean l' := by
  unfold listMean
  rw [h.sum_eq, h.length_eq]

theorem listVar_perm (l l' : List ℚ) (h : List.Perm l l') :
    listVar l = listVar l' := by
  unfold listVar
  rw [listMean_perm l l' h, (h.map (fun x => (x - listMean l') ^ 2)).sum_eq,
    h.length_eq]

theorem listMedian_perm (l l' : List ℚ) (h : List.Perm l l') :
    listMedian l = listMedian l' := by
  unfold listMedian
  rw [sortAsc_eq_of_perm l l' h, h.length_eq]

theorem listMin_perm (l l' : List ℚ) (h : List.Perm l l') :
    listMin l = listMin l' := by
  rcases eq_or_ne l [] with rfl | hne
  · rw [h.symm.eq_nil]
  · have hne' : l' ≠ [] := fun he => hne (h.trans (he ▸ List.Perm.refl _)).eq_nil
    exact le_antisymm
      (listMin_le l (listMin l') (h.mem_iff.mpr (listMin_mem l' hne')))
      (listMin_le l' (listMin l) (h.mem_iff.mp (listMin_mem l hne)))

theorem listMax_perm (l l' : List ℚ) (h : List.Perm l l') :
    listMax l = listMax l' := by
  rcases eq_or_ne l [] with rfl | hne
  · rw [h.symm.eq_nil]
  · have hne' : l' ≠ [] := fun he => hne (h.trans (he ▸ List.Perm.refl _)).eq_nil
    exact le_antisymm
      (le_listMax l' (listMax l) (h.mem_iff.mp (listMax_mem l hne)))
      (le_listMax l (listMax l') (h.mem_iff.mpr (listMax_mem l' hne')))

theorem statsOfList_perm (l l' : List ℚ) (h : List.Perm l l') :
    statsOfList l = statsOfList l' := by
  unfold statsOfList
  rw [listMedian_perm l l' h, listMean_perm l l' h, listVar_perm l l' h,
    listMin_perm l l' h, listMax_perm l l' h]

theorem zipWith_map_both {α β : Type} (f : β → β → β) (F G : α → β)
    (l : List α) :
    List.zipWith f (l.map F) (l.map G) = l.map (fun x => f (F x) (G x)) := by
  induction l with
  | nil => rfl
  | cons a as ih => simp [ih]

theorem bufferExtend_pixBuffer (R : XRaster) (K ps : List (Nat × Nat))
    (hps : ps ≠ []) :
    bufferExtend (pixBuffer R K) (rawRecord R ps) = pixBuffer R (K ++ ps) := by
  unfold pixBuffer bufferExtend
  by_cases hK : K = []
  · subst hK
    rw [if_pos rfl, List.nil_append, if_neg hps]
  · rw [if_neg hK, if_neg (by simp [hK])]
    dsimp only
    congr 1
    unfold rawRecord bandValues
    rw [zipWith_map_both]
    simp [List.map_append]

theorem keptPixels_none_of_not_intersects (R : XRaster) (g : GeoBox)
    (thr : ℚ) (T : PixWindow) (hpx : 0 < R.px) (hpy : 0 < R.py)
    (hi : ¬ boxIntersects g (tileWorldBox R T)) :
    keptPixels R g T.toRect thr = none := by
  rcases hI : rectIntersect T.toRect (geomWindow R g) with _ | W
  · unfold keptPixels
    rw [hI]
  · exact absurd (boxIntersects_of_rectIntersect R g T hpx hpy W hI) hi

theorem extractStep_id (R : XRaster) (g : GeoBox) (thr : ℚ)
    (st : ExtractState) (T : PixWindow)
    (hk : keptPixels R g T.toRect thr = none)
    (hw : ¬ boxWithin g (tileWorldBox R T)) :
    extractStep R g thr st T = st := by
  unfold extractStep
  by_cases he : st.emitted.isSome
  · rw [if_pos he]
  · rw [if_neg he]
    by_cases hi : ¬ boxIntersects g (tileWorldBox R T)
    · rw [if_pos hi]
    · rw [if_neg hi, if_neg hw]
      unfold processGeometryRaw
      rw [hk]
      rfl

theorem extractStep_within (R : XRaster) (g : GeoBox) (thr : ℚ)
    (T : PixWindow) (hi : boxIntersects g (tileWorldBox R T))
    (hw : boxWithin g (tileWorldBox R T)) :
    extractStep R g thr ⟨none, none⟩ T =
      match processGeometryStats R g T.toRect thr with
      | some rec => ⟨some rec, none⟩
      | none => ⟨none, none⟩ := by
  unfold extractStep
  rw [if_neg (show ¬ ((⟨none, none⟩ : ExtractState).emitted.isSome = true)
      by simp),
    if_neg (not_not_intro hi), if_pos hw]
  rcases processGeometryStats R g T.toRect thr with _ | rec <;> rfl

theorem extractFold_emitted (R : XRaster) (g : GeoBox) (thr : ℚ)
    (rec : List BandStats) (buf : Option (List (List ℚ)))
    (tiles : List PixWindow) :
    tiles.foldl (extractStep R g thr) ⟨some rec, buf⟩ = ⟨some rec, buf⟩ := by
  induction tiles with
  | nil => rfl
  | cons T ts ih =>
    rw [List.foldl_cons, show extractStep R g thr ⟨some rec, buf⟩ T =
      ⟨some rec, buf⟩ from by
        unfold extractStep
        rw [if_pos (show ((⟨some rec, buf⟩ : ExtractState)).emitted.isSome =
          true from rfl)]]
    exact ih

theorem extractFold_none (R : XRaster) (g : GeoBox) (thr : ℚ)
    (tiles : List PixWindow)
    (hall : ∀ T ∈ tiles,
      extractStep R g thr ⟨none, none⟩ T = ⟨none, none⟩) :
    tiles.foldl (extractStep R g thr) ⟨none, none⟩ = ⟨none, none⟩ := by
  induction tiles with
  | nil => rfl
  | cons T ts ih =>
    rw [List.foldl_cons, hall T (by simp)]
    exact ih fun x hx => hall x (by simp [hx])

theorem extractFold_within (R : XRaster) (g : GeoBox) (thr : ℚ)
    (T : PixWindow) (tiles : List PixWindow) (hmem : T ∈ tiles)
    (hall : ∀ T' ∈ tiles, T' = T ∨
      (keptPixels R g T'.toRect thr = none ∧
        ¬ boxWithin g (tileWorldBox R T')))
    (hi : boxIntersects g (tileWorldBox R T))
    (hw : boxWithin g (tileWorldBox R T)) :
    tiles.foldl (extractStep R g thr) ⟨none, none⟩ =
      match processGeometryStats R g T.toRect thr with
      | some rec => ⟨some rec, none⟩
      | none => ⟨none, none⟩ := by
  rcases hps : processGeometryStats R g T.toRect thr with _ | rec
  · refine extractFold_none R g thr tiles ?_
    intro T' hT'
    rcases hall T' hT' with rfl | ⟨hk, hw'⟩
    · rw [extractStep_within R g thr T' hi hw, hps]
    · exact extractStep_id R g thr _ T' hk hw'
  · induction tiles with
    | nil => cases hmem
    | cons T'' ts ih =>
      rw [List.foldl_cons]
      rcases hall T'' (by simp) with rfl | ⟨hk, hw'⟩
      · rw [extractStep_within R g thr T'' hi hw, hps]
        exact extractFold_emitted R g thr rec none ts
      · rw [extractStep_id R g thr _ T'' hk hw']
        have hmem' : T ∈ ts := by
          rcases List.mem_cons.mp hmem with heq | h
          · exfalso
            rw [← heq] at hk
            unfold processGeometryStats at hps
            rw [hk] at hps
            cases hps
          · exact h
        exact ih hmem' fun x hx => hall x (by simp [hx])

theorem extractFold_buffer (R : XRaster) (g : GeoBox) (thr : ℚ)
    (hpx : 0 < R.px) (hpy : 0 < R.py)
    (tiles : List PixWindow) (K : List (Nat × Nat))
    (hnw : ∀ T ∈ tiles, ¬ boxWithin g (tileWorldBox R T)) :
    tiles.foldl (extractStep R g thr) ⟨none, pixBuffer R K⟩ =
      ⟨none, pixBuffer R (K ++ tilesKept R g thr tiles)⟩ := by
  induction tiles generalizing K with
  | nil => simp [tilesKept]
  | cons T ts ih =>
    rw [List.foldl_cons]
    have hstep : extractStep R g thr ⟨none, pixBuffer R K⟩ T =
        ⟨none, pixBuffer R (K ++ tileKept R g thr T)⟩ := by
      unfold extractStep
      rw [if_neg (show
        ¬ ((⟨none, pixBuffer R K⟩ : ExtractState).emitted.isSome = true)
          by simp)]
      by_cases hi : ¬ boxIntersects g (tileWorldBox R T)
      · rw [if_pos hi]
        rw [show tileKept R g thr T = [] from by
          unfold tileKept
          rw [keptPixels_none_of_not_intersects R g thr T hpx hpy hi]
          rfl]
        rw [List.append_nil]
      · rw [if_neg hi, if_neg (hnw T (by simp))]
        unfold processGeometryRaw
        rcases hk : keptPixels R g T.toRect thr with _ | ps
        · rw [show tileKept R g thr T = [] from by
            unfold tileKept
            rw [hk]
            rfl]
          rw [List.append_nil]
          rfl
        · obtain ⟨W, -, -, -, -, hne⟩ :=
            keptPixels_inv R g T.toRect thr ps hk
          rw [show tileKept R g thr T = ps from by
            unfold tileKept
            rw [hk]
            rfl]
          show (⟨none, bufferExtend (pixBuffer R K) (rawRecord R ps)⟩ :
            ExtractState) = _
          rw [bufferExtend_pixBuffer R K ps hne]
    rw [hstep, ih (K ++ tileKept R g thr T)
      (fun x hx => hnw x (by simp [hx]))]
    rw [show tilesKept R g thr (T :: ts) =
      tileKept R g thr T ++ tilesKept R g thr ts from by
        unfold tilesKept
        rw [List.map_cons, List.flatten_cons]]
    rw [← List.append_assoc]

theorem keptPixels_strict_eq (R : XRaster) (g : GeoBox) (thr : ℚ)
    (A W : IntRect) (hb : ¬ R.bands = 0)
    (hW : rectIntersect A (geomWindow R g) = some W)
    (hw2 : 2 < W.w) (hh2 : 2 < W.h) (hs : strictPixels R g W ≠ []) :
    keptPixels R g A thr =
      if (rectPixels W).filter (fun p => decide (validCol R thr p) &&
          decide (centerInside R g p)) = [] then none
      else some ((rectPixels W).filter (fun p =>
        decide (validCol R thr p) && decide (centerInside R g p))) := by
  have hmask : maskPixels R g W = strictPixels R g W := by
    unfold maskPixels
    rw [if_neg (by omega), if_neg hs]
  have hfe : (maskPixels R g W).filter (fun p => decide (validCol R thr p)) =
      (rectPixels W).filter (fun p => decide (validCol R thr p) &&
        decide (centerInside R g p)) := by
    rw [hmask]
    unfold strictPixels
    rw [List.filter_filter]
  unfold keptPixels
  rw [hW]
  dsimp only
  rw [if_neg hb, if_neg (by rw [hmask]; exact hs), hfe]

theorem tileKept_eq_filter (R : XRaster) (g : GeoBox) (thr : ℚ)
    (T : PixWindow) (hb : ¬ R.bands = 0)
    (hm : ∀ W, rectIntersect T.toRect (geomWindow R g) = some W →
      2 < W.w ∧ 2 < W.h ∧ strictPixels R g W ≠ []) :
    tileKept R g thr T = (tilePix R g T).filter
      (fun p => decide (validCol R thr p) && decide (centerInside R g p)) := by
  unfold tileKept tilePix
  rcases hW : rectIntersect T.toRect (geomWindow R g) with _ | W
  · unfold keptPixels
    rw [hW]
    rfl
  · obtain ⟨hw2, hh2, hs⟩ := hm W hW
    rw [keptPixels_strict_eq R g thr T.toRect W hb hW hw2 hh2 hs]
    by_cases hf : (rectPixels W).filter (fun p =>
        decide (validCol R thr p) && decide (centerInside R g p)) = []
    · rw [if_pos hf, hf]
      rfl
    · rw [if_neg hf]
      rfl

theorem flatten_map_filter {α β : Type} (l : List α) (F : α → List β)
    (q : β → Bool) :
    (l.map (fun a => (F a).filter q)).flatten =
      (l.map F).flatten.filter q := by
  induction l with
  | nil => rfl
  | cons a as ih =>
    rw [List.map_cons, List.flatten_cons, List.map_cons, List.flatten_cons,
      List.filter_append, ih]

theorem rectIntersect_of_sub (A G : IntRect)
    (h1 : A.col_off ≤ G.col_off) (h2 : G.col_off + G.w ≤ A.col_off + A.w)
    (h3 : A.row_off ≤ G.row_off) (h4 : G.row_off + G.h ≤ A.row_off + A.h)
    (hw : 0 < G.w) (hh : 0 < G.h) :
    rectIntersect A G = some G := by
  rw [rectIntersect_eq_some]
  refine ⟨⟨by omega, by omega⟩, ?_⟩
  have e1 : max A.col_off G.col_off = G.col_off := by omega
  have e2 : max A.row_off G.row_off = G.row_off := by omega
  have e3 : min (A.col_off + A.w) (G.col_off + G.w) = G.col_off + G.w := by
    omega
  have e4 : min (A.row_off + A.h) (G.row_off + G.h) = G.row_off + G.h := by
    omega
  rw [e1, e2, e3, e4, add_sub_cancel_left, add_sub_cancel_left]

theorem tilePix_nodup (R : XRaster) (g : GeoBox) (T : PixWindow) :
    (tilePix R g T).Nodup := by
  unfold tilePix
  rcases h : rectIntersect T.toRect (geomWindow R g) with _ | W
  · exact List.nodup_nil
  · obtain ⟨h1, h2, h3, h4, h5, h6⟩ := rectIntersect_fields _ _ _ h
    dsimp only [PixWindow.toRect] at h1 h2
    exact rectPixels_nodup W (by omega) (by omega)

theorem tilesPix_perm (R : XRaster) (g : GeoBox) (tiles : List PixWindow)
    (hgc : 0 ≤ (geomWindow R g).col_off)
    (hgr : 0 ≤ (geomWindow R g).row_off)
    (hcw : (geomWindow R g).col_off + (geomWindow R g).w ≤ R.cols)
    (hrh : (geomWindow R g).row_off + (geomWindow R g).h ≤ R.rows)
    (hcover : ∀ r < R.rows, ∀ c < R.cols, ∃ T ∈ tiles, T.containsPix r c)
    (hdisj : List.Pairwise (fun T1 T2 => ∀ r c,
      ¬ (T1.containsPix r c ∧ T2.containsPix r c)) tiles) :
    List.Perm (tiles.map (tilePix R g)).flatten
      (rectPixels (geomWindow R g)) := by
  refine (List.perm_ext_iff_of_nodup ?_
    (rectPixels_nodup _ hgc hgr)).mpr ?_
  · rw [List.nodup_flatten]
    constructor
    · intro l hl
      rw [List.mem_map] at hl
      obtain ⟨T, hT, rfl⟩ := hl
      exact tilePix_nodup R g T
    · refine List.Pairwise.map _ ?_ hdisj
      intro T1 T2 h12 p hp1 hp2
      have m1 := (tilePix_mem R g T1 hgc hgr p).mp hp1
      have m2 := (tilePix_mem R g T2 hgc hgr p).mp hp2
      exact h12 p.1 p.2 ⟨m1.1, m2.1⟩
  · intro p
    rw [List.mem_flatten]
    constructor
    · rintro ⟨l, hl, hp⟩
      rw [List.mem_map] at hl
      obtain ⟨T, hT, rfl⟩ := hl
      exact ((tilePix_mem R g T hgc hgr p).mp hp).2
    · intro hp
      have hpb := (mem_rectPixels _ hgc hgr p).mp hp
      obtain ⟨T, hT, hcont⟩ := hcover p.1 (by omega) p.2 (by omega)
      exact ⟨tilePix R g T, List.mem_map.mpr ⟨T, hT, rfl⟩,
        (tilePix_mem R g T hgc hgr p).mpr ⟨hcont, hp⟩⟩

/-- **C2 (amended).**  For a polygon lying inside the raster whose
floor-rounded pixel window is more than 2 pixels wide and high, streamed
over any exact tile partition of the pixel grid in which every per-tile
clipped window is itself more than 2 pixels wide and high with a nonempty
strict rasterization (so that no visit falls into the `all_touched`
small-window or empty-mask fallbacks), the record produced by the tile
stream plus boundary-buffer finalization of `extract_features` equals the
record produced by processing the whole raster in memory: the per-band
median, mean, variance, min and max all agree. -/
theorem statistics_equivalence (R : XRaster) (tiles : List PixWindow)
    (g : GeoBox) (thr : ℚ)
    (hb : 0 < R.bands) (hpx : 0 < R.px) (hpy : 0 < R.py)
    (hg : boxWithin g (rasterWorldBox R))
    (hGw : 2 < (geomWindow R g).w) (hGh : 2 < (geomWindow R g).h)
    (hcover : ∀ r < R.rows, ∀ c < R.cols, ∃ T ∈ tiles, T.containsPix r c)
    (hdisj : List.Pairwise (fun T1 T2 => ∀ r c,
      ¬ (T1.containsPix r c ∧ T2.containsPix r c)) tiles)
    (hmask : ∀ T ∈ tiles, ∀ W,
      rectIntersect T.toRect (geomWindow R g) = some W →
      2 < W.w ∧ 2 < W.h ∧ strictPixels R g W ≠ []) :
    extractOne R tiles g thr = extractInMemory R g thr := by
  have hbne : ¬ R.bands = 0 := by omega
  obtain ⟨hgc, hgr, hcw, hrh⟩ := geomWindow_in_grid R g hpx hpy hg
  have hGw' : (geomWindow R g).w = ⌊(g.maxx - g.minx) / R.px⌋ := rfl
  have hGh' : (geomWindow R g).h = ⌊(g.maxy - g.miny) / R.py⌋ := rfl
  have hgx : g.minx < g.maxx := by
    have h3 : ((3 : Int) : ℚ) ≤ (g.maxx - g.minx) / R.px :=
      Int.le_floor.mp (by rw [← hGw']; omega)
    rw [le_div_iff₀ hpx] at h3
    push_cast at h3
    linarith
  have hgy : g.miny < g.maxy := by
    have h3 : ((3 : Int) : ℚ) ≤ (g.maxy - g.miny) / R.py :=
      Int.le_floor.mp (by rw [← hGh']; omega)
    rw [le_div_iff₀ hpy] at h3
    push_cast at h3
    linarith
  have hint : boxIntersects g (rasterWorldBox R) := by
    unfold boxWithin rasterWorldBox at hg
    obtain ⟨h1, h2, h3, h4⟩ := hg
    dsimp only at h1 h2 h3 h4
    unfold boxIntersects rasterWorldBox
    refine ⟨?_, ?_, ?_, ?_⟩ <;> dsimp only <;> linarith
  have hfull : rectIntersect (fullRect R) (geomWindow R g) =
      some (geomWindow R g) := by
    unfold fullRect
    refine rectIntersect_of_sub _ _ ?_ ?_ ?_ ?_ (by omega) (by omega)
    · show (0 : Int) ≤ (geomWindow R g).col_off
      omega
    · show (geomWindow R g).col_off + (geomWindow R g).w ≤ 0 + (R.cols : Int)
      omega
    · show (0 : Int) ≤ (geomWindow R g).row_off
      omega
    · show (geomWindow R g).row_off + (geomWindow R g).h ≤ 0 + (R.rows : Int)
      omega
  by_cases hwith : ∃ T ∈ tiles, boxWithin g (tileWorldBox R T)
  · obtain ⟨T, hT, hW⟩ := hwith
    obtain ⟨ht1, ht2, ht3, ht4⟩ := geomWindow_sub_tile R g T hpx hpy hW
    have hcornerT : T.containsPix (geomWindow R g).row_off.toNat
        (geomWindow R g).col_off.toNat := by
      unfold PixWindow.containsPix
      omega
    have hTG : rectIntersect T.toRect (geomWindow R g) =
        some (geomWindow R g) :=
      rectIntersect_of_sub _ _ ht1 ht2 ht3 ht4 (by omega) (by omega)
    have hall : ∀ T' ∈ tiles, T' = T ∨
        (keptPixels R g T'.toRect thr = none ∧
          ¬ boxWithin g (tileWorldBox R T')) := by
      intro T' hT'
      by_cases he : T' = T
      · exact Or.inl he
      · right
        have hsymm : Symmetric (fun (T1 T2 : PixWindow) => ∀ r c,
            ¬ (T1.containsPix r c ∧ T2.containsPix r c)) := by
          intro a b hab r c hrc
          exact hab r c ⟨hrc.2, hrc.1⟩
        have hdd : ∀ r c, ¬ (T'.containsPix r c ∧ T.containsPix r c) :=
          List.Pairwise.forall hsymm hdisj hT' hT he
        constructor
        · rcases hI : rectIntersect T'.toRect (geomWindow R g) with _ | W'
          · unfold keptPixels
            rw [hI]
          · exfalso
            obtain ⟨f1, f2, f3, f4, f5, f6⟩ := rectIntersect_fields _ _ _ hI
            dsimp only [PixWindow.toRect] at f1 f2 f3 f4
            have hpW : (W'.row_off.toNat, W'.col_off.toNat) ∈
                rectPixels W' := by
              rw [mem_rectPixels _ (by omega) (by omega)]
              refine ⟨?_, ?_, ?_, ?_⟩ <;> dsimp only <;> omega
            have hpT : (W'.row_off.toNat, W'.col_off.toNat) ∈
                tilePix R g T' := by
              unfold tilePix
              rw [hI]
              exact hpW
            have hgm := (tilePix_mem R g T' hgc hgr _).mp hpT
            have hGB := (mem_rectPixels _ hgc hgr _).mp hgm.2
            have hTB : T.containsPix W'.row_off.toNat W'.col_off.toNat := by
              unfold PixWindow.containsPix
              dsimp only at hGB
              omega
            exact hdd _ _ ⟨hgm.1, hTB⟩
        · intro hW'
          obtain ⟨g1, g2, g3, g4⟩ := geomWindow_sub_tile R g T' hpx hpy hW'
          have hcT' : T'.containsPix (geomWindow R g).row_off.toNat
              (geomWindow R g).col_off.toNat := by
            unfold PixWindow.containsPix
            omega
          exact hdd _ _ ⟨hcT', hcornerT⟩
    have hiT : boxIntersects g (tileWorldBox R T) :=
      boxIntersects_of_rectIntersect R g T hpx hpy _ hTG
    unfold extractOne
    rw [extractFold_within R g thr T tiles hT hall hiT hW]
    unfold extractInMemory
    rw [if_pos hint]
    have hstats : processGeometryStats R g T.toRect thr =
        processGeometryStats R g (fullRect R) thr := by
      unfold processGeometryStats keptPixels
      rw [hTG, hfull]
    rw [hstats]
    rcases processGeometryStats R g (fullRect R) thr with _ | rec <;> rfl
  · push_neg at hwith
    have hfold := extractFold_buffer R g thr hpx hpy tiles [] hwith
    have hpb0 : pixBuffer R [] = none := by
      unfold pixBuffer
      rw [if_pos rfl]
    unfold extractOne
    rw [show (⟨none, none⟩ : ExtractState) =
      (⟨none, pixBuffer R []⟩ : ExtractState) from by rw [hpb0]]
    rw [hfold, List.nil_append]
    have hKperm : List.Perm (tilesKept R g thr tiles)
        ((rectPixels (geomWindow R g)).filter (fun p =>
          decide (validCol R thr p) && decide (centerInside R g p))) := by
      unfold tilesKept
      rw [List.map_congr_left (fun T hT =>
        tileKept_eq_filter R g thr T hbne (hmask T hT))]
      rw [flatten_map_filter]
      exact (tilesPix_perm R g tiles hgc hgr hcw hrh hcover hdisj).filter _
    have hpixmem : ((geomWindow R g).row_off.toNat,
        (geomWindow R g).col_off.toNat) ∈ rectPixels (geomWindow R g) := by
      rw [mem_rectPixels _ hgc hgr]
      refine ⟨?_, ?_, ?_, ?_⟩ <;> dsimp only <;> omega
    have hsG : strictPixels R g (geomWindow R g) ≠ [] := by
      obtain ⟨T0, hT0, hcont0⟩ := hcover (geomWindow R g).row_off.toNat
        (by omega) (geomWindow R g).col_off.toNat (by omega)
      have hpT0 : ((geomWindow R g).row_off.toNat,
          (geomWindow R g).col_off.toNat) ∈ tilePix R g T0 :=
        (tilePix_mem R g T0 hgc hgr _).mpr ⟨hcont0, hpixmem⟩
      rcases hI : rectIntersect T0.toRect (geomWindow R g) with _ | W0
      · exfalso
        unfold tilePix at hpT0
        rw [hI] at hpT0
        cases hpT0
      · obtain ⟨-, -, hs0⟩ := hmask T0 hT0 W0 hI
        obtain ⟨q, hq⟩ := List.exists_mem_of_ne_nil _ hs0
        have hq' := List.mem_filter.mp hq
        have hqT0 : q ∈ tilePix R g T0 := by
          unfold tilePix
          rw [hI]
          exact hq'.1
        have hqG : q ∈ rectPixels (geomWindow R g) :=
          ((tilePix_mem R g T0 hgc hgr q).mp hqT0).2
        intro hemp
        have hqS : q ∈ strictPixels R g (geomWindow R g) :=
          List.mem_filter.mpr ⟨hqG, hq'.2⟩
        rw [hemp] at hqS
        cases hqS
    have hmem_full := keptPixels_strict_eq R g thr (fullRect R)
      (geomWindow R g) hbne hfull hGw hGh hsG
    unfold extractInMemory
    rw [if_pos hint]
    unfold processGeometryStats
    rw [hmem_full]
    by_cases hMfe : (rectPixels (geomWindow R g)).filter (fun p =>
        decide (validCol R thr p) && decide (centerInside R g p)) = []
    · rw [if_pos hMfe]
      have hKe : tilesKept R g thr tiles = [] :=
        List.Perm.eq_nil (hMfe ▸ hKperm)
      rw [hKe, hpb0]
      rfl
    · rw [if_neg hMfe]
      have hKne : tilesKept R g thr tiles ≠ [] := by
        intro he
        rw [he] at hKperm
        exact hMfe hKperm.symm.eq_nil
      rw [show pixBuffer R (tilesKept R g thr tiles) =
        some (rawRecord R (tilesKept R g thr tiles)) from by
          unfold pixBuffer
          rw [if_neg hKne]]
      show some ((rawRecord R (tilesKept R g thr tiles)).map statsOfList) =
        some (statsRecord R ((rectPixels (geomWindow R g)).filter (fun p =>
          decide (validCol R thr p) && decide (centerInside R g p))))
      congr 1
      unfold rawRecord statsRecord
      rw [List.map_map]
      apply List.map_congr_left
      intro b hb'
      show statsOfList (bandValues R (tilesKept R g thr tiles) b) =
        statsOfList (bandValues R _ b)
      exact statsOfList_perm _ _ (hKperm.map _)

theorem int_toNat_two : Int.toNat 2 = 2 := by simp

theorem int_toNat_three : Int.toNat 3 = 3 := by simp

theorem int_toNat_four : Int.toNat 4 = 4 := by simp

theorem int_toNat_five : Int.toNat 5 = 5 := by simp

/-- **C2 counterexample.**  The spec's statistics-equivalence claim fails
without the amendment's window conditions: `exTiles2` is a legitimate
exact partition of `exRaster2` (cover and pairwise disjointness included
below) and `exGeom2` lies strictly inside the raster, yet the tiled run
emits mean 34 (and max 100) while the in-memory run emits mean 1 (and max
1), because the 1-pixel-wide clip of the geometry window inside the first
tile falls into the `all_touched` fallback of `_process_geometry_in_memory`
and picks up the column of 100-valued pixels whose centers lie outside the
polygon. -/
theorem statistics_equivalence_counterexample :
    boxWithin exGeom2 (rasterWorldBox exRaster2) ∧
    (∀ r < exRaster2.rows, ∀ c < exRaster2.cols,
      ∃ T ∈ exTiles2, T.containsPix r c) ∧
    List.Pairwise (fun T1 T2 => ∀ r c,
      ¬ (T1.containsPix r c ∧ T2.containsPix r c)) exTiles2 ∧
    extractInMemory exRaster2 exGeom2 (1/2) = some [⟨1, 1, 0, 1, 1⟩] ∧
    extractOne exRaster2 exTiles2 exGeom2 (1/2) =
      some [⟨1, 34, 2178, 1, 100⟩] ∧
    ¬ ((1 : ℚ) = 34) := by
  have hf1 : ⌊(3/5 : ℚ)⌋ = 0 := Int.floor_eq_iff.mpr (by norm_num)
  have hf2 : ⌊(1/4 : ℚ)⌋ = 0 := Int.floor_eq_iff.mpr (by norm_num)
  have hf3 : ⌊(16/5 : ℚ)⌋ = 3 := Int.floor_eq_iff.mpr (by norm_num)
  have hf4 : ⌊(7/2 : ℚ)⌋ = 3 := Int.floor_eq_iff.mpr (by norm_num)
  have hG2 : geomWindow exRaster2 exGeom2 = ⟨0, 0, 3, 3⟩ := by
    unfold geomWindow exRaster2 exGeom2
    norm_num [hf1, hf2, hf3, hf4]
  have hk1 : keptPixels exRaster2 exGeom2 (PixWindow.toRect ⟨0, 0, 1, 4⟩)
      (1/2) = some [(0, 0), (1, 0), (2, 0)] := by
    unfold keptPixels
    rw [hG2]
    rw [show rectIntersect (PixWindow.toRect ⟨0, 0, 1, 4⟩)
        (⟨0, 0, 3, 3⟩ : IntRect) = some ⟨0, 0, 1, 3⟩ from by
      norm_num +decide [rectIntersect, PixWindow.toRect]]
    norm_num +decide [exRaster2, exGeom2, maskPixels, touchedPixels,
      strictPixels, rectPixels, pixelTouches, centerInside, validCol,
      List.range_succ, List.filter, int_toNat_two, int_toNat_three,
      int_toNat_four, int_toNat_five]
  have hk2 : keptPixels exRaster2 exGeom2 (PixWindow.toRect ⟨1, 0, 3, 4⟩)
      (1/2) = some [(0, 1), (0, 2), (1, 1), (1, 2), (2, 1), (2, 2)] := by
    unfold keptPixels
    rw [hG2]
    rw [show rectIntersect (PixWindow.toRect ⟨1, 0, 3, 4⟩)
        (⟨0, 0, 3, 3⟩ : IntRect) = some ⟨1, 0, 2, 3⟩ from by
      norm_num +decide [rectIntersect, PixWindow.toRect]]
    norm_num +decide [exRaster2, exGeom2, maskPixels, touchedPixels,
      strictPixels, rectPixels, pixelTouches, centerInside, validCol,
      List.range_succ, List.filter, int_toNat_two, int_toNat_three,
      int_toNat_four, int_toNat_five]
  have hkm : keptPixels exRaster2 exGeom2 (fullRect exRaster2) (1/2) =
      some [(0, 1), (0, 2), (1, 1), (1, 2), (2, 1), (2, 2)] := by
    unfold keptPixels
    rw [hG2]
    rw [show rectIntersect (fullRect exRaster2) (⟨0, 0, 3, 3⟩ : IntRect) =
        some ⟨0, 0, 3, 3⟩ from by
      norm_num +decide [rectIntersect, fullRect, exRaster2]]
    norm_num +decide [exRaster2, exGeom2, maskPixels, touchedPixels,
      strictPixels, rectPixels, pixelTouches, centerInside, validCol,
      List.range_succ, List.filter, int_toNat_two, int_toNat_three,
      int_toNat_four, int_toNat_five]
  have hmem : extractInMemory exRaster2 exGeom2 (1/2) =
      some [⟨1, 1, 0, 1, 1⟩] := by
    unfold extractInMemory
    rw [if_pos (show boxIntersects exGeom2 (rasterWorldBox exRaster2) by
      norm_num [boxIntersects, rasterWorldBox, exRaster2, exGeom2])]
    unfold processGeometryStats
    rw [hkm]
    norm_num [statsRecord, statsOfList, bandValues, listMedian, listMean,
      listVar, listMin, listMax, sortAsc, insertAsc, exRaster2,
      List.range_succ]
  have hraw1 : processGeometryRaw exRaster2 exGeom2
      (PixWindow.toRect ⟨0, 0, 1, 4⟩) (1/2) = some [[100, 100, 100]] := by
    unfold processGeometryRaw
    rw [hk1]
    norm_num [rawRecord, bandValues, exRaster2, List.range_succ]
  have hraw2 : processGeometryRaw exRaster2 exGeom2
      (PixWindow.toRect ⟨1, 0, 3, 4⟩) (1/2) =
      some [[1, 1, 1, 1, 1, 1]] := by
    unfold processGeometryRaw
    rw [hk2]
    norm_num [rawRecord, bandValues, exRaster2, List.range_succ]
  have hstep1 : extractStep exRaster2 exGeom2 (1/2) ⟨none, none⟩
      ⟨0, 0, 1, 4⟩ = ⟨none, some [[100, 100, 100]]⟩ := by
    unfold extractStep
    rw [if_neg (show ¬ ((⟨none, none⟩ : ExtractState).emitted.isSome = true)
      by simp)]
    rw [if_neg (not_not_intro (show boxIntersects exGeom2
        (tileWorldBox exRaster2 ⟨0, 0, 1, 4⟩) by
      norm_num [boxIntersects, tileWorldBox, exRaster2, exGeom2]))]
    rw [if_neg (show ¬ boxWithin exGeom2
        (tileWorldBox exRaster2 ⟨0, 0, 1, 4⟩) by
      norm_num [boxWithin, tileWorldBox, exRaster2, exGeom2])]
    rw [hraw1]
    rfl
  have hstep2 : extractStep exRaster2 exGeom2 (1/2)
      ⟨none, some [[100, 100, 100]]⟩ ⟨1, 0, 3, 4⟩ =
      ⟨none, some [[100, 100, 100, 1, 1, 1, 1, 1, 1]]⟩ := by
    unfold extractStep
    rw [if_neg (show ¬ ((⟨none, some [[100, 100, 100]]⟩ :
      ExtractState).emitted.isSome = true) by simp)]
    rw [if_neg (not_not_intro (show boxIntersects exGeom2
        (tileWorldBox exRaster2 ⟨1, 0, 3, 4⟩) by
      norm_num [boxIntersects, tileWorldBox, exRaster2, exGeom2]))]
    rw [if_neg (show ¬ boxWithin exGeom2
        (tileWorldBox exRaster2 ⟨1, 0, 3, 4⟩) by
      norm_num [boxWithin, tileWorldBox, exRaster2, exGeom2])]
    rw [hraw2]
    rfl
  have hone : extractOne exRaster2 exTiles2 exGeom2 (1/2) =
      some [⟨1, 34, 2178, 1, 100⟩] := by
    unfold extractOne exTiles2
    rw [List.foldl_cons, hstep1, List.foldl_cons, hstep2, List.foldl_nil]
    show some ([[100, 100, 100, 1, 1, 1, 1, 1, 1]].map statsOfList) = _
    norm_num [statsOfList, listMedian, listMean, listVar, listMin, listMax,
      sortAsc, insertAsc]
  refine ⟨?_, by decide, ?_, hmem, hone, by norm_num⟩
  · norm_num [boxWithin, rasterWorldBox, exRaster2, exGeom2]
  · unfold exTiles2
    refine List.Pairwise.cons ?_ ?_
    · intro T hT r c hrc
      rw [List.mem_singleton] at hT
      subst hT
      simp only [PixWindow.containsPix] at hrc
      omega
    · simp

theorem statistics_equivalence_witness :
    extractOne exRaster4 exTiles4 exGeom4 0 =
      extractInMemory exRaster4 exGeom4 0 :=
  statistics_equivalence exRaster4 exTiles4 exGeom4 0
    (by norm_num [exRaster4])
    (by norm_num [exRaster4])
    (by norm_num [exRaster4])
    (by norm_num [boxWithin, rasterWorldBox, exRaster4, exGeom4])
    (by norm_num [geomWindow, exRaster4, exGeom4, Int.floor_ofNat])
    (by norm_num [geomWindow, exRaster4, exGeom4, Int.floor_ofNat])
    (by decide)
    (by
      unfold exTiles4
      refine List.Pairwise.cons ?_ ?_
      · intro T hT r c hrc
        rw [List.mem_singleton] at hT
        subst hT
        simp only [PixWindow.containsPix] at hrc
        omega
      · simp)
    (by
      intro T hT W hW
      unfold exTiles4 at hT
      rw [List.mem_cons, List.mem_singleton] at hT
      rcases hT with rfl | rfl
      · rw [show rectIntersect (PixWindow.toRect ⟨0, 0, 3, 3⟩)
            (geomWindow exRaster4 exGeom4) = some ⟨0, 0, 3, 3⟩ from by
          norm_num +decide [rectIntersect, geomWindow, PixWindow.toRect,
            exRaster4, exGeom4, Int.floor_ofNat]] at hW
        injection hW with hW
        subst hW
        refine ⟨by norm_num, by norm_num, ?_⟩
        norm_num +decide [strictPixels, rectPixels, centerInside,
          exRaster4, exGeom4, List.range_succ, List.filter, int_toNat_two,
          int_toNat_three, int_toNat_four, int_toNat_five]
      · rw [show rectIntersect (PixWindow.toRect ⟨3, 0, 3, 3⟩)
            (geomWindow exRaster4 exGeom4) = some ⟨3, 0, 3, 3⟩ from by
          norm_num +decide [rectIntersect, geomWindow, PixWindow.toRect,
            exRaster4, exGeom4, Int.floor_ofNat]] at hW
        injection hW with hW
        subst hW
        refine ⟨by norm_num, by norm_num, ?_⟩
        norm_num +decide [strictPixels, rectPixels, centerInside,
          exRaster4, exGeom4, List.range_succ, List.filter, int_toNat_two,
          int_toNat_three, int_toNat_four, int_toNat_five])

end Phytospatial
